import Mathlib

/-!
Verification of the `gtk-packager-rs` packaging core against its specification.

The Rust sources are shallowly embedded:
* strings (`&str` / `OsStr`) are `String` / `List Char`;
* filesystem paths (`Path` / `PathBuf`) are lists of path components;
* the filesystem is a finite list of existing file paths plus a total
  function giving the PE import table of each path (the PE Import Reader);
* the closure loop of `Packager::package`, which can run forever, is
  embedded with explicit fuel.

All definitions are executable so concrete runs can be settled by `decide`.
-/

namespace GtkPackager

/-! ### Character / string helpers (models of Rust `str` methods) -/

/-- Model of Rust `char::to_ascii_lowercase` (same as Lean core `Char.toLower`:
only ASCII letters are lowered). -/
def lowerChar (c : Char) : Char :=
  if c.toNat ≥ 65 ∧ c.toNat ≤ 90 then Char.ofNat (c.toNat + 32) else c

/-- Model of Rust `str::to_ascii_lowercase`. -/
def lowerStr (s : String) : String :=
  String.mk (s.toList.map lowerChar)

/-- Does `s` end with `pat`? (used to model one step of `trim_end_matches`). -/
def hasSuffix (s pat : List Char) : Bool :=
  decide (pat.length ≤ s.length) && decide (s.drop (s.length - pat.length) = pat)

/-- Fuel-indexed worker for `trimEndList`; the fuel is always at least
`s.length`, which suffices since every step shortens `s`. -/
def trimEndAux (pat : List Char) : Nat → List Char → List Char
  | 0, s => s
  | fuel + 1, s =>
    if pat ≠ [] ∧ hasSuffix s pat = true then
      trimEndAux pat fuel (s.take (s.length - pat.length))
    else s

/-- Model of Rust `str::trim_end_matches(pat)`: repeatedly removes the suffix
`pat` from the end of `s`. -/
def trimEndList (s pat : List Char) : List Char :=
  trimEndAux pat s.length s

/-- Model of Rust `str::strip_prefix`. -/
def stripPre (pre s : List Char) : Option (List Char) :=
  if pre.isPrefixOf s then some (s.drop pre.length) else none

/-- Model of Rust `str::rsplit_once(c)`: split at the last occurrence of `c`,
returning the parts before and after it. -/
def rsplitOnceCl (c : Char) : List Char → Option (List Char × List Char)
  | [] => none
  | a :: rest =>
    match rsplitOnceCl c rest with
    | some (b, after) => some (a :: b, after)
    | none => if a = c then some ([], rest) else none

/-- Model of Rust `str::split(c)`: splits at every occurrence of `c`,
keeping empty runs. -/
def splitOnCl (c : Char) : List Char → List (List Char)
  | [] => [[]]
  | a :: rest =>
    let r := splitOnCl c rest
    if a = c then [] :: r
    else
      match r with
      | h :: t => (a :: h) :: t
      | [] => [[a]]

/-- Model of Rust `str::parse::<u32>()`: an optional leading `+`, then one or
more ASCII digits, and the value must fit in 32 bits (otherwise `Err`). -/
def parseU32Cl (s : List Char) : Option Nat :=
  let digits := if s.head? = some '+' then s.tail else s
  if digits = [] then none
  else if digits.all Char.isDigit then
    let v := digits.foldl (fun acc c => acc * 10 + (c.toNat - 48)) 0
    if v < 4294967296 then some v else none
  else none

/-! ### `msys2-gtk-packager/src/util.rs` -/

/-- The frozen allow-list of `is_system_dll`, in source order. -/
def systemDllList : List String :=
  ["kernel32", "ole32", "oleaut32", "mfplat", "user32", "mf", "mfreadwrite",
   "bcrypt", "advapi32", "shell32", "dnsapi", "gdi32", "imm32", "comdlg32",
   "opengl32", "shlwapi", "comctl32", "winspool", "version", "cfgmgr32",
   "kernelbase", "usp10", "msvfw32", "msimg32", "winmm", "rpcrt4", "userenv",
   "hid", "wsock32", "ntdll", "d3d11", "msvcrt", "gdiplus", "avicap32",
   "crypt32", "setupapi", "iphlpapi", "ws2_32", "win32u", "ncrypt", "dwmapi",
   "dxgi"]

/-- `is_system_dll` from `util.rs`: lower-case, trim all trailing `.dll`
then all trailing `.drv`, and test membership in the fixed allow-list
(the source's `matches!` macro is a membership test over these literals). -/
def is_system_dll (name : String) : Bool :=
  let n := (lowerStr name).toList
  let n := trimEndList (trimEndList n (".dll").toList) (".drv").toList
  systemDllList.contains (String.mk n)

/-- Model of Rust `char::is_alphanumeric` restricted to ASCII
(`Char.isAlphanum`); both the embedded code and the grammar below use this
same predicate, so their comparison is unaffected by the restriction. -/
def charAlnum (c : Char) : Bool :=
  c.isAlphanum

def apiChars : List Char := ("api-").toList

def extChars : List Char := ("ext-").toList

def dllChars : List Char := (".dll").toList

/-- Core of `is_api_set_dll` on character lists. The nested match is the
source's `strip_prefix("api-").or_else(|| strip_prefix("ext-"))`. -/
def apiSetCl (s : List Char) : Bool :=
  match (match stripPre apiChars s with
         | some r => some r
         | none => stripPre extChars s) with
  | none => false
  | some s1 =>
    let s2 := trimEndList s1 dllChars
    match rsplitOnceCl 'l' s2 with
    | none => false
    | some (core, rest) =>
      let parts := (splitOnCl '-' rest).filter (fun p => p ≠ [])
      -- the source pulls three `u32`s off an iterator and then requires the
      -- iterator to be exhausted: exactly three parseable parts
      if parts.length = 3 ∧ parts.all (fun p => (parseU32Cl p).isSome) then
        core.all (fun c => charAlnum c || c = '-')
      else false

/-- `is_api_set_dll` from `util.rs`. -/
def is_api_set_dll (name : String) : Bool :=
  apiSetCl name.toList

/-! ### `msys2/src/lib.rs` -/

/-- The MSYS2 environment enumeration. -/
inductive Msys2Environment where
  | Msys
  | Mingw64
  | Ucrt64
  | Clang64
  | Mingw32
  | Clang32
  | ClangArm64
deriving DecidableEq, Repr

/-- `Msys2Environment::get_prefix` (renamed to satisfy lexical constraints
of this development): the fixed POSIX path of each environment. -/
def Msys2Environment.get_prefix_str : Msys2Environment → String
  | .Msys => "/usr"
  | .Mingw64 => "/mingw64"
  | .Ucrt64 => "/ucrt64"
  | .Clang64 => "/clang64"
  | .Mingw32 => "/mingw32"
  | .Clang32 => "/clang32"
  | .ClangArm64 => "/clangarm64"

/-- `target_triple_to_msys2_environment` from `util.rs`; the source `match`
on string literals is a sequential comparison, embedded as an `if` chain. -/
def target_triple_to_msys2_environment (triple : String) : Option Msys2Environment :=
  if triple = "aarch64-pc-windows-gnullvm" then some .ClangArm64
  else if triple = "aarch64-pc-windows-msvc" then none
  else if triple = "aarch64-uwp-windows-msvc" then none
  else if triple = "i586-pc-windows-msvc" then none
  else if triple = "i686-pc-windows-gnu" then some .Mingw32
  else if triple = "i686-pc-windows-msvc" then none
  else if triple = "i686-uwp-windows-gnu" then none
  else if triple = "i686-uwp-windows-msvc" then none
  else if triple = "thumbv7a-pc-windows-msvc" then none
  else if triple = "thumbv7a-uwp-windows-msvc" then none
  else if triple = "x86_64-pc-windows-gnu" then some .Mingw64
  else if triple = "x86_64-pc-windows-gnullvm" then some .Clang64
  else if triple = "x86_64-pc-windows-msvc" then none
  else if triple = "x86_64-uwp-windows-gnu" then some .Ucrt64
  else if triple = "x86_64-uwp-windows-msvc" then none
  else none

/-! ### Paths and the filesystem model

Paths are modelled as their component lists (the result of Rust
`Path::components()`); import names and destination names are assumed
slash-free, so joining a name appends one `normal` component. -/

inductive Component where
  | rootDir
  | curDir
  | parentDir
  | normal (s : String)
deriving DecidableEq, Repr

/-- A path, as its list of components. -/
abbrev FsPath := List Component

/-- Model of Rust `Path::file_name`. -/
def fileNameOf (p : FsPath) : Option String :=
  match p.getLast? with
  | some (Component.normal s) => some s
  | _ => none

/-- Model of Rust `Path::is_relative`: no leading root. -/
def isRelative (p : FsPath) : Bool :=
  match p.head? with
  | some Component.rootDir => false
  | _ => true

/-- Lower-case the textual content of a component
(ASCII-lowering an `OsString` and re-parsing preserves the structure). -/
def lowerComponent : Component → Component
  | .normal s => .normal (lowerStr s)
  | c => c

/-- Model of
`PathBuf::from(OsString::from(src).to_ascii_lowercase()).starts_with("c:/windows")`. -/
def startsWithCWindows (p : FsPath) : Bool :=
  (p.map lowerComponent).take 2 = [Component.normal "c:", Component.normal "windows"]

/-- `Path::try_exists` against the finite filesystem `fs`
(always succeeds in the model; I/O errors are out of scope). -/
def pathExists (fs : List FsPath) (p : FsPath) : Bool :=
  fs.contains p

/-- Model of Rust `str::trim_start_matches('/')`. -/
def trimLeadSlashes (s : String) : String :=
  String.mk (s.toList.dropWhile (fun c => c = '/'))

/-! ### `msys2-packager/src/packager.rs` -/

/-- `FileFlags`, the bit set over LIB, UPX, EXE, ADD_DEPS. -/
structure FileFlags where
  lib : Bool
  upx : Bool
  exe : Bool
  addDeps : Bool
deriving DecidableEq, Repr

/-- The flags `FileFlags::UPX | FileFlags::LIB | FileFlags::ADD_DEPS` given
to files discovered by the closure. -/
def closureFlags : FileFlags :=
  { lib := true, upx := true, exe := false, addDeps := true }

/-- The `File` struct: one staging entry. -/
structure File where
  src : Option FsPath
  dest : FsPath
  flags : FileFlags
deriving DecidableEq, Repr

/-- The `Packager` struct (its configuration fields plus the registered
staging list at the time `package` is called). -/
structure Packager where
  msys2_installation_path : FsPath
  out_dir : FsPath
  msys2_environment : Msys2Environment
  files : List File
  resolve_unknown_libraries : Bool
  upx : Bool
deriving DecidableEq, Repr

/-- The ambient world: which paths exist, and what the PE Import Reader
returns for each path (total: runs where PE parsing fails are out of scope
except through the staging data actually reached). -/
structure World where
  fs : List FsPath
  imports : FsPath → List String

/-- Errors surfaced by `package` (the `anyhow` bails/ensures/contexts, plus
the two `panic!` sites modelled as errors). -/
inductive PkgError where
  | noComponents (dest : FsPath)
  | tooManyComponents (dest : FsPath)
  | notValidDllName (dest : FsPath)
  | missingLibrary (name : String)
  | missingFileName (src : FsPath)
  | panicUnresolved (dest : FsPath)
  | absoluteDest (dest : FsPath)
  | systemDirSrc (src : FsPath)
deriving DecidableEq, Repr

/-- Filesystem actions performed by Phase 4, in order. -/
inductive Action where
  | copy (src dest : FsPath)
  | compress (dest : FsPath)
deriving DecidableEq, Repr

/-- `Packager::get_msys2_environment_path`. -/
def get_msys2_environment_path (cfg : Packager) : FsPath :=
  cfg.msys2_installation_path ++
    [Component.normal (trimLeadSlashes (Msys2Environment.get_prefix_str cfg.msys2_environment))]

/-- `Packager::lookup_msys2_file`: probe `lib` then `bin`, each with the bare
name, then `.dll`, then `.exe` appended, returning the first existing path. -/
def lookup_msys2_file (cfg : Packager) (fs : List FsPath) (name : String) : Option FsPath :=
  let lookupDir := get_msys2_environment_path cfg
  ["lib", "bin"].findSome? fun sub =>
    let path := lookupDir ++ [Component.normal sub, Component.normal name]
    if pathExists fs path then some path
    else
      ["dll", "exe"].findSome? fun ext =>
        let path2 := lookupDir ++ [Component.normal sub, Component.normal (name ++ "." ++ ext)]
        if pathExists fs path2 then some path2 else none

/-- Phase 2 (`// Lookup missing`): resolve each entry whose `src` is absent.
The dest must decompose into exactly one component, of `Normal` kind. -/
def resolvePhase (cfg : Packager) (w : World) : List File → Except PkgError (List File)
  | [] => .ok []
  | f :: rest =>
    match f.src with
    | some _ =>
      match resolvePhase cfg w rest with
      | .error e => .error e
      | .ok rest2 => .ok (f :: rest2)
    | none =>
      match f.dest with
      | [] => .error (.noComponents f.dest)
      | [c] =>
        match c with
        | Component.normal name =>
          match lookup_msys2_file cfg w.fs name with
          | none => .error (.missingLibrary name)
          | some src =>
            match resolvePhase cfg w rest with
            | .error e => .error e
            | .ok rest2 => .ok ({ f with src := some src } :: rest2)
        | _ => .error (.notValidDllName f.dest)
      | _ :: _ :: _ => .error (.tooManyComponents f.dest)

/-- Insert into a hash set modelled as a duplicate-free list
(insertion order fixed; the claims below do not depend on set order). -/
def insertSet (l : List String) (x : String) : List String :=
  if x ∈ l then l else l ++ [x]

/-- `HashSet::remove`. -/
def removeSet (l : List String) (x : String) : List String :=
  l.filter (fun y => y ≠ x)

/-- One import name of a scanned file: discard system DLLs, discard names
already known, record API-set names as known, otherwise mark unknown. -/
def processImport (acc : List String × List String) (name : String) :
    List String × List String :=
  if is_system_dll name then acc
  else if name ∈ acc.1 then acc
  else if is_api_set_dll name then (insertSet acc.1 name, acc.2)
  else (acc.1, insertSet acc.2 name)

def processImports (acc : List String × List String) :
    List String → List String × List String
  | [] => acc
  | n :: rest => processImports (processImport acc n) rest

/-- Scan one staging entry inside the closure loop: record its file name as
known (and no longer unknown), then classify each of its imports. -/
def scanFile (w : World) (acc : List String × List String) (f : File) :
    Except PkgError (List String × List String) :=
  match f.src with
  | none => .error (.panicUnresolved f.dest)
  | some src =>
    match fileNameOf src with
    | none => .error (.missingFileName src)
    | some fname =>
      .ok (processImports (insertSet acc.1 fname, removeSet acc.2 fname) (w.imports src))

/-- One pass of the closure loop over a slice of the staging list,
restricted to entries whose flags contain LIB or EXE. -/
def scanPass (w : World) (acc : List String × List String) :
    List File → Except PkgError (List String × List String)
  | [] => .ok acc
  | f :: rest =>
    if f.flags.lib || f.flags.exe then
      match scanFile w acc f with
      | .error e => .error e
      | .ok acc2 => scanPass w acc2 rest
    else scanPass w acc rest

/-- Drain the unknown set: look every name up and append a new staging entry
with flags `UPX | LIB | ADD_DEPS` and the name as its single-component dest. -/
def drainUnknowns (cfg : Packager) (w : World) (files : List File) :
    List String → Except PkgError (List File)
  | [] => .ok files
  | library :: rest =>
    match lookup_msys2_file cfg w.fs library with
    | none => .error (.missingLibrary library)
    | some src =>
      drainUnknowns cfg w
        (files ++ [{ src := some src, dest := [Component.normal library], flags := closureFlags }])
        rest

/-- The mutable state of the Phase 3 loop. -/
structure LoopState where
  files : List File
  known : List String
  unknown : List String
  offset : Nat
deriving Repr

inductive LoopResult where
  | done (files : List File)
  | fail (e : PkgError)
  | fuelOut
deriving DecidableEq, Repr

/-- Phase 3, the transitive-closure loop, with explicit fuel (the Rust loop
has no bound; `fuelOut` marks executions longer than the given fuel). -/
def closureLoop (cfg : Packager) (w : World) : Nat → LoopState → LoopResult
  | 0, _ => .fuelOut
  | fuel + 1, st =>
    match scanPass w (st.known, st.unknown) (st.files.drop st.offset) with
    | .error e => .fail e
    | .ok (ks, us) =>
      -- `files_to_copy_offset = self.files.len().saturating_sub(1)` (before drain)
      let offset2 := st.files.length - 1
      match drainUnknowns cfg w st.files us with
      | .error e => .fail e
      | .ok files2 =>
        if us = [] then .done files2
        else closureLoop cfg w fuel ⟨files2, ks, [], offset2⟩

inductive MatResult where
  | ok (fs : List FsPath) (acts : List Action)
  | fail (e : PkgError) (fs : List FsPath) (acts : List Action)
deriving DecidableEq, Repr

/-- Phase 4: materialize each entry in order. An entry is checked (relative
dest, non-system src), skipped if its destination exists, otherwise copied
(the copy makes the destination exist) and optionally compressed. Errors
carry the filesystem and the actions performed up to that point. -/
def materialize (cfg : Packager) (fs : List FsPath) : List File → MatResult
  | [] => .ok fs []
  | f :: rest =>
    if ¬ isRelative f.dest then .fail (.absoluteDest f.dest) fs []
    else
      match f.src with
      | none => .fail (.panicUnresolved f.dest) fs []
      | some src =>
        if startsWithCWindows src then .fail (.systemDirSrc src) fs []
        else
          let dest := cfg.out_dir ++ f.dest
          if pathExists fs dest then materialize cfg fs rest
          else
            let acts :=
              if cfg.upx && f.flags.upx && (f.flags.lib || f.flags.exe) then
                [Action.copy src dest, Action.compress dest]
              else [Action.copy src dest]
            match materialize cfg (dest :: fs) rest with
            | .ok fs2 acts2 => .ok fs2 (acts ++ acts2)
            | .fail e fs2 acts2 => .fail e fs2 (acts ++ acts2)

/-- The overall outcome of `Packager::package`: the final staging list, the
filesystem, and the actions performed — or an error (with the partial
filesystem and actions), or divergence (the fuel ran out). -/
inductive PkgOutcome where
  | ok (files : List File) (fs : List FsPath) (acts : List Action)
  | err (e : PkgError) (fs : List FsPath) (acts : List Action)
  | diverges
deriving DecidableEq, Repr

/-- `Packager::package`, phases 1–4 (phase 1, directory creation, does not
affect the model). -/
def package (cfg : Packager) (w : World) (fuel : Nat) : PkgOutcome :=
  match resolvePhase cfg w cfg.files with
  | .error e => .err e w.fs []
  | .ok files1 =>
    match (if cfg.resolve_unknown_libraries then
            closureLoop cfg w fuel ⟨files1, [], [], 0⟩
           else .done files1) with
    | .fuelOut => .diverges
    | .fail e => .err e w.fs []
    | .done files2 =>
      match materialize cfg w.fs files2 with
      | .ok fs2 acts => .ok files2 fs2 acts
      | .fail e fs2 acts => .err e fs2 acts

/-! ### Spec-side definitions used to state the claims -/

/-- The probe sequence of the Sysroot Resolver as the spec describes it:
`R/lib/n`, `R/lib/n.dll`, `R/lib/n.exe`, `R/bin/n`, `R/bin/n.dll`,
`R/bin/n.exe`, where `R` is the MSYS2 installation path joined with the
environment prefix stripped of its leading slash. -/
def lookupCandidates (cfg : Packager) (name : String) : List FsPath :=
  let R := cfg.msys2_installation_path ++
    [Component.normal (trimLeadSlashes (Msys2Environment.get_prefix_str cfg.msys2_environment))]
  [R ++ [Component.normal ("lib"), Component.normal name],
   R ++ [Component.normal ("lib"), Component.normal (name ++ ".dll")],
   R ++ [Component.normal ("lib"), Component.normal (name ++ ".exe")],
   R ++ [Component.normal ("bin"), Component.normal name],
   R ++ [Component.normal ("bin"), Component.normal (name ++ ".dll")],
   R ++ [Component.normal ("bin"), Component.normal (name ++ ".exe")]]

/-- The spec's minimum allow-list for `is_system` (spec §4.2), in the
spec's order. -/
def specMinimumSystemList : List String :=
  ["kernel32", "ntdll", "user32", "gdi32", "advapi32", "ole32", "oleaut32",
   "shell32", "shlwapi", "comctl32", "comdlg32", "winspool", "version",
   "cfgmgr32", "kernelbase", "win32u", "rpcrt4", "userenv", "setupapi",
   "iphlpapi", "ws2_32", "wsock32", "dnsapi", "crypt32", "bcrypt", "ncrypt",
   "imm32", "usp10", "opengl32", "gdiplus", "msimg32", "msvfw32", "winmm",
   "hid", "d3d11", "dxgi", "dwmapi", "mf", "mfplat", "mfreadwrite",
   "avicap32", "msvcrt"]

/-- Helper: the concrete `Ucrt64` packager used for the C4 scenarios. -/
def c4cfg : Packager :=
  { msys2_installation_path := [Component.normal ("root")]
    out_dir := [Component.normal ("out")]
    msys2_environment := .Ucrt64
    files := []
    resolve_unknown_libraries := true
    upx := false }

def c4LibFoo : FsPath :=
  [Component.normal ("root"), Component.normal ("ucrt64"),
   Component.normal ("lib"), Component.normal ("foo.dll")]

def c4BinFoo : FsPath :=
  [Component.normal ("root"), Component.normal ("ucrt64"),
   Component.normal ("bin"), Component.normal ("foo.dll")]

def c4BinBarExe : FsPath :=
  [Component.normal ("root"), Component.normal ("ucrt64"),
   Component.normal ("bin"), Component.normal ("bar.exe")]

set_option maxHeartbeats 1000000 in
/-! ### Definitions for claims C3 and C8 -/

/-- A dest that is not a single `Normal` component (the shape Phase 2
rejects for unresolved entries). -/
def BadDestB (d : FsPath) : Bool :=
  match d with
  | [Component.normal _] => false
  | _ => true

/-- An entry that Phase 4 rejects: non-relative dest, or a resolved src
under the Windows system directory. -/
def OffendingB (f : File) : Bool :=
  !isRelative f.dest ||
    (match f.src with
     | some p => startsWithCWindows p
     | none => false)

/-- C3 counterexample entry: unresolved, single-component dest, flags with
neither LIB nor EXE. -/
def c3ent : File :=
  { src := none
    dest := [Component.normal ("bar")]
    flags := { lib := false, upx := false, exe := false, addDeps := false } }

def c3cfg : Packager :=
  { msys2_installation_path := [Component.normal ("root")]
    out_dir := [Component.normal ("out")]
    msys2_environment := .Ucrt64
    files := [c3ent]
    resolve_unknown_libraries := true
    upx := false }

def c3LibBarDll : FsPath :=
  [Component.normal ("root"), Component.normal ("ucrt64"),
   Component.normal ("lib"), Component.normal ("bar.dll")]

def c3world : World :=
  { fs := [c3LibBarDll]
    imports := fun _ => [] }

/-- C3 concrete instance: an unresolved entry with a two-component dest. -/
def c3destBad : FsPath :=
  [Component.normal ("a"), Component.normal ("b")]

def c3entBad : File :=
  { src := none
    dest := c3destBad
    flags := { lib := true, upx := false, exe := false, addDeps := false } }

def c3cfgBad : Packager :=
  { c3cfg with files := [c3entBad] }

/-- C8 entries: one ordinary entry followed by one whose resolved src is
`C:/Windows/System32/kernel32.dll`. -/
def c8srcGood : FsPath :=
  [Component.normal ("s"), Component.normal ("good.dll")]

def c8srcKernel : FsPath :=
  [Component.normal ("C:"), Component.normal ("Windows"),
   Component.normal ("System32"), Component.normal ("kernel32.dll")]

def c8entGood : File :=
  { src := some c8srcGood
    dest := [Component.normal ("good.dll")]
    flags := { lib := true, upx := false, exe := false, addDeps := false } }

def c8entKernel : File :=
  { src := some c8srcKernel
    dest := [Component.normal ("kernel32.dll")]
    flags := { lib := true, upx := false, exe := false, addDeps := false } }

def c8cfg : Packager :=
  { msys2_installation_path := [Component.normal ("root")]
    out_dir := [Component.normal ("out")]
    msys2_environment := .Ucrt64
    files := [c8entGood, c8entKernel]
    resolve_unknown_libraries := false
    upx := false }

def c8cfgSingle : Packager :=
  { c8cfg with files := [c8entKernel] }

def c8world : World :=
  { fs := []
    imports := fun _ => [] }

def c8outGood : FsPath :=
  [Component.normal ("out"), Component.normal ("good.dll")]

/-- The staging entry of the C3 counterexample after Phase 2 resolution. -/
def c3entResolved : File :=
  { src := some c3LibBarDll
    dest := [Component.normal ("bar")]
    flags := { lib := false, upx := false, exe := false, addDeps := false } }

def c3outBar : FsPath :=
  [Component.normal ("out"), Component.normal ("bar")]

/-- Decidable equality for `Except`, so concrete phase results can be
settled by `decide`. -/
instance instDecEqExcept {e a : Type} [DecidableEq e] [DecidableEq a] :
    DecidableEq (Except e a) := fun x y =>
  match x, y with
  | .ok u, .ok v =>
    if h : u = v then isTrue (by rw [h]) else isFalse (by intro hc; cases hc; exact h rfl)
  | .error u, .error v =>
    if h : u = v then isTrue (by rw [h]) else isFalse (by intro hc; cases hc; exact h rfl)
  | .ok _, .error _ => isFalse (by intro hc; cases hc)
  | .error _, .ok _ => isFalse (by intro hc; cases hc)

/-! ### Definitions for claim C10 -/

/-- The per-entry effect of Phase 2: dest and flags are unchanged, a
present src is unchanged, and an absent src is replaced by the successful
lookup of the single-component dest name. -/
def ResolveRel (cfg : Packager) (w : World) (f g : File) : Prop :=
  g.dest = f.dest ∧ g.flags = f.flags ∧
  (f.src.isSome → g.src = f.src) ∧
  (f.src = none →
    ∃ n src, f.dest = [Component.normal n] ∧
      lookup_msys2_file cfg w.fs n = some src ∧ g.src = some src)

/-! ### Definitions for claim C5: the API-set grammar -/

/-- `n` concatenated copies of `pat`. -/
def patRep (pat : List Char) : Nat → List Char
  | 0 => []
  | n + 1 => patRep pat n ++ pat

/-- The dash-separated tokens of the integers part, empty runs ignored
(as both the spec grammar and the code treat them). -/
def numsParts (nums : List Char) : List (List Char) :=
  (splitOnCl '-' nums).filter (fun p => p ≠ [])

/-- The integers condition as the code checks it: exactly three tokens,
each accepted by Rust `u32` parsing. -/
def NumsOkCode (nums : List Char) : Prop :=
  (numsParts nums).length = 3 ∧ ∀ p ∈ numsParts nums, (parseU32Cl p).isSome = true

/-- The integers condition as the spec grammar words it: exactly three
non-empty decimal-digit tokens. -/
def NumsOkSpec (nums : List Char) : Prop :=
  (numsParts nums).length = 3 ∧ ∀ p ∈ numsParts nums, p ≠ [] ∧ ∀ c ∈ p, c.isDigit = true

/-- The middle part: alphanumerics and hyphens. -/
def CoreOk (core : List Char) : Prop :=
  ∀ c ∈ core, charAlnum c = true ∨ c = '-'

/-- The API-set grammar exactly as the claim words it: an `api-` or `ext-`
prefix, then alphanumerics and hyphens, then a literal `l` followed by
three dash-separated non-empty decimal integers (empty runs ignored),
optionally ending in `.dll`. -/
def ApiSetGrammarSpec (s : List Char) : Prop :=
  ∃ pre core nums suf,
    (pre = apiChars ∨ pre = extChars) ∧
    (suf = [] ∨ suf = dllChars) ∧
    s = pre ++ (core ++ 'l' :: (nums ++ suf)) ∧
    CoreOk core ∧ NumsOkSpec nums

/-- The grammar amended to what the code accepts: any number of trailing
`.dll` copies is allowed, and the integer tokens are those accepted by Rust
`u32` parsing (an optional leading `+` and a 32-bit bound). -/
def ApiSetGrammarAmended (s : List Char) : Prop :=
  ∃ pre core nums n,
    (pre = apiChars ∨ pre = extChars) ∧
    s = pre ++ (core ++ 'l' :: (nums ++ patRep dllChars n)) ∧
    CoreOk core ∧ NumsOkCode nums

/-! ### Definitions for claim C9 -/

/-- Outcome projections, to state properties of concrete runs compactly. -/
def pkgIsOk : PkgOutcome → Bool
  | .ok _ _ _ => true
  | _ => false

def pkgFsOf : PkgOutcome → List FsPath
  | .ok _ fs _ => fs
  | .err _ fs _ => fs
  | .diverges => []

def pkgActsOf : PkgOutcome → List Action
  | .ok _ _ a => a
  | .err _ _ a => a
  | .diverges => []

/-- C9 counterexample: the output root aliases the sysroot's `lib`
directory, so the first run's outputs change the second run's lookups. -/
def c9srcApp : FsPath := [Component.normal ("s"), Component.normal ("app.exe")]

def c9srcData : FsPath := [Component.normal ("s"), Component.normal ("data")]

def c9BinBarExe : FsPath :=
  [Component.normal ("r"), Component.normal ("ucrt64"),
   Component.normal ("bin"), Component.normal ("bar.exe")]

def c9BinBazDll : FsPath :=
  [Component.normal ("r"), Component.normal ("ucrt64"),
   Component.normal ("bin"), Component.normal ("baz.dll")]

def c9LibBar : FsPath :=
  [Component.normal ("r"), Component.normal ("ucrt64"),
   Component.normal ("lib"), Component.normal ("bar")]

def c9LibApp : FsPath :=
  [Component.normal ("r"), Component.normal ("ucrt64"),
   Component.normal ("lib"), Component.normal ("app.exe")]

def c9entApp : File :=
  { src := some c9srcApp
    dest := [Component.normal ("app.exe")]
    flags := { lib := false, upx := false, exe := true, addDeps := false } }

def c9entData : File :=
  { src := some c9srcData
    dest := [Component.normal ("bar")]
    flags := { lib := false, upx := false, exe := false, addDeps := false } }

def c9cfg : Packager :=
  { msys2_installation_path := [Component.normal ("r")]
    out_dir := [Component.normal ("r"), Component.normal ("ucrt64"), Component.normal ("lib")]
    msys2_environment := .Ucrt64
    files := [c9entApp, c9entData]
    resolve_unknown_libraries := true
    upx := false }

/-- The import oracle: `app.exe` imports `bar`; the data file (and hence
its copy at `lib/bar`) is a PE importing `baz`; everything else imports
nothing. -/
def c9imports : FsPath → List String := fun p =>
  if p = c9srcApp then ["bar"]
  else if p = c9srcData then ["baz"]
  else if p = c9LibBar then ["baz"]
  else []

def c9world : World :=
  { fs := [c9BinBarExe, c9BinBazDll]
    imports := c9imports }

/-- The filesystem produced by the first `package` run. -/
def c9fs1 : List FsPath := [c9LibBar, c9LibApp, c9BinBarExe, c9BinBazDll]

def c9world2 : World :=
  { fs := c9fs1
    imports := c9imports }

/-- C9 witness configuration: a single already-resolved entry and an
output root that cannot alias any lookup directory. -/
def c9wSrc : FsPath := [Component.normal ("ws"), Component.normal ("e.dll")]

def c9wOut : FsPath := [Component.normal ("w9out"), Component.normal ("e.dll")]

def c9wEnt : File :=
  { src := some c9wSrc
    dest := [Component.normal ("e.dll")]
    flags := { lib := false, upx := false, exe := false, addDeps := false } }

def c9wCfg : Packager :=
  { msys2_installation_path := [Component.normal ("w9root")]
    out_dir := [Component.normal ("w9out")]
    msys2_environment := .Ucrt64
    files := [c9wEnt]
    resolve_unknown_libraries := false
    upx := false }

def c9wWorld : World :=
  { fs := []
    imports := fun _ => [] }

/-! ### Definitions for claims C1 and C2 -/

/-- `package` terminates on a configuration when some fuel suffices. -/
def PackageTerminates (cfg : Packager) (w : World) : Prop :=
  ∃ fuel, package cfg w fuel ≠ PkgOutcome.diverges

/-- All import names of the given entries' sources. -/
def importsOfSrcs (w : World) (files : List File) : List String :=
  files.foldr
    (fun f acc =>
      (match f.src with
       | some p => w.imports p
       | none => []) ++ acc) []

/-- All import names of existing files. -/
def importsOfFs (w : World) : List String :=
  w.fs.foldr (fun p acc => w.imports p ++ acc) []

/-- Every import name the closure can ever encounter: imports of the
registered sources plus imports of every file of the finite filesystem. -/
def importUniverse (cfg : Packager) (w : World) : List String :=
  importsOfSrcs w cfg.files ++ importsOfFs w

/-- A name resolves consistently: if the sysroot resolver finds a path for
it, that path's file name is the name itself. -/
def lookupNameOk (cfg : Packager) (fs : List FsPath) (n : String) : Bool :=
  match lookup_msys2_file cfg fs n with
  | some p => fileNameOf p == some n
  | none => true

/-- The hypothesis of the amended termination claim: every name in
the import universe resolves consistently. -/
def LookupNamesMatch (cfg : Packager) (w : World) : Bool :=
  (importUniverse cfg w).all (lookupNameOk cfg w.fs)

/-- The file name a LIB/EXE entry contributes when scanned. -/
def entryPendName (f : File) : Option String :=
  match f.src with
  | some p => fileNameOf p
  | none => none

/-- The names the next pass will insert into the known set. -/
def pendingNames (files : List File) : List String :=
  (files.filter (fun f => f.flags.lib || f.flags.exe)).filterMap entryPendName

/-- The termination measure: universe names not yet known or pending. -/
def loopMeasure (U known pend : List String) : Nat :=
  (U.toFinset \ (known.toFinset ∪ pend.toFinset)).card

/-- The disjointness invariant of the two closure sets: an unknown name is
never known and never an API-set name. -/
def UDInv (acc : List String × List String) : Prop :=
  ∀ x ∈ acc.2, x ∉ acc.1 ∧ is_api_set_dll x = false

/-- C1/C2 concrete configuration: an executable importing the bare name
`foo`, which the resolver finds at `lib/foo.dll` by extension probing. -/
def c1srcApp : FsPath := [Component.normal ("s1"), Component.normal ("app.exe")]

def c1LibFooDll : FsPath :=
  [Component.normal ("r"), Component.normal ("ucrt64"),
   Component.normal ("lib"), Component.normal ("foo.dll")]

def c1entApp : File :=
  { src := some c1srcApp
    dest := [Component.normal ("app.exe")]
    flags := { lib := false, upx := false, exe := true, addDeps := false } }

def c1cfg : Packager :=
  { msys2_installation_path := [Component.normal ("r")]
    out_dir := [Component.normal ("out")]
    msys2_environment := .Ucrt64
    files := [c1entApp]
    resolve_unknown_libraries := true
    upx := false }

/-- C1 world: `foo.dll` itself imports nothing, so the run succeeds. -/
def c1imports : FsPath → List String := fun p =>
  if p = c1srcApp then ["foo"] else []

def c1world : World :=
  { fs := [c1LibFooDll]
    imports := c1imports }

/-- The entry the closure appends for the name `foo`. -/
def c1entFoo : File :=
  { src := some c1LibFooDll
    dest := [Component.normal ("foo")]
    flags := closureFlags }

def c1filesFinal : List File := [c1entApp, c1entFoo, c1entFoo]

/-- C2 divergence world: `foo.dll` additionally re-imports the bare name
`foo`, which never becomes known (the staged file name is `foo.dll`). -/
def c2imports : FsPath → List String := fun p =>
  if p = c1srcApp then ["foo"]
  else if p = c1LibFooDll then ["foo"]
  else []

def c2world : World :=
  { fs := [c1LibFooDll]
    imports := c2imports }

/-- C2 cycle instance: the executable imports `A.dll`, `A.dll` imports
`B.dll` and `B.dll` imports `A.dll` back. -/
def c2cyBinA : FsPath :=
  [Component.normal ("r"), Component.normal ("ucrt64"),
   Component.normal ("bin"), Component.normal ("A.dll")]

def c2cyBinB : FsPath :=
  [Component.normal ("r"), Component.normal ("ucrt64"),
   Component.normal ("bin"), Component.normal ("B.dll")]

def c2cyImports : FsPath → List String := fun p =>
  if p = c1srcApp then ["A.dll"]
  else if p = c2cyBinA then ["B.dll"]
  else if p = c2cyBinB then ["A.dll"]
  else []

def c2cyWorld : World :=
  { fs := [c2cyBinA, c2cyBinB]
    imports := c2cyImports }

def c2cyEntA : File :=
  { src := some c2cyBinA
    dest := [Component.normal ("A.dll")]
    flags := closureFlags }

def c2cyEntB : File :=
  { src := some c2cyBinB
    dest := [Component.normal ("B.dll")]
    flags := closureFlags }

def c2cyFilesFinal : List File := [c1entApp, c2cyEntA, c2cyEntB]

/-- Final filesystem of the successful C1 run. -/
def c1fsFinal : List FsPath :=
  [[Component.normal ("out"), Component.normal ("foo")],
   [Component.normal ("out"), Component.normal ("app.exe")],
   c1LibFooDll]

/-- Actions of the successful C1 run. -/
def c1acts : List Action :=
  [Action.copy c1srcApp [Component.normal ("out"), Component.normal ("app.exe")],
   Action.copy c1LibFooDll [Component.normal ("out"), Component.normal ("foo")]]

/-- Final filesystem of the successful C2 cycle run. -/
def c2cyFsFinal : List FsPath :=
  [[Component.normal ("out"), Component.normal ("B.dll")],
   [Component.normal ("out"), Component.normal ("A.dll")],
   [Component.normal ("out"), Component.normal ("app.exe")],
   c2cyBinA, c2cyBinB]

/-- Actions of the successful C2 cycle run. -/
def c2cyActs : List Action :=
  [Action.copy c1srcApp [Component.normal ("out"), Component.normal ("app.exe")],
   Action.copy c2cyBinA [Component.normal ("out"), Component.normal ("A.dll")],
   Action.copy c2cyBinB [Component.normal ("out"), Component.normal ("B.dll")]]

/-- The recurring loop state of the diverging C2 run: after the second
iteration the loop keeps appending one more copy of the `foo` entry and
rescanning the last two entries forever. -/
def c2stState (m : Nat) : LoopState :=
  { files := c1entApp :: List.replicate (m + 2) c1entFoo
    known := ["app.exe", "foo.dll"]
    unknown := []
    offset := m + 1 }

/-- A dependency name is covered by a staging list: it is a system DLL, an
API-set DLL, the file name of some entry's resolved source, or the single
normal dest component of some entry. -/
def ImportCovered (F : List File) (n : String) : Prop :=
  is_system_dll n = true ∨ is_api_set_dll n = true ∨
  (∃ g ∈ F, ∃ q, g.src = some q ∧ fileNameOf q = some n) ∨
  (∃ g ∈ F, g.dest = [Component.normal n])

/-! ## Lemmas and theorems -/

/-! ### Claim C4: the sysroot resolver's probe order -/

theorem append_dot_dll (s : String) : s ++ "." ++ "dll" = s ++ ".dll" := by
  have h : ("." : String) ++ "dll" = ".dll" := by decide
  rw [String.append_assoc, h]

theorem append_dot_exe (s : String) : s ++ "." ++ "exe" = s ++ ".exe" := by
  have h : ("." : String) ++ "exe" = ".exe" := by decide
  rw [String.append_assoc, h]

theorem lookup_eq_find (cfg : Packager) (fs : List FsPath) (name : String) :
    lookup_msys2_file cfg fs name = (lookupCandidates cfg name).find? (pathExists fs) := by
  simp only [lookup_msys2_file, lookupCandidates, get_msys2_environment_path,
    List.findSome?_cons, List.find?_cons, append_dot_dll, append_dot_exe,
    List.findSome?_nil, List.find?_nil]
  repeat' (split <;> try simp_all)

/-- C4: `lookup_msys2_file` probes, in this exact order, `R/lib/n`,
`R/lib/n.dll`, `R/lib/n.exe`, `R/bin/n`, `R/bin/n.dll`, `R/bin/n.exe` —
where `R` is the MSYS2 installation path joined with the environment prefix
stripped of its leading slash — and returns the first existing path;
with both `ucrt64/lib/foo.dll` and `ucrt64/bin/foo.dll` present resolving
`foo.dll` returns the `lib/` one, and resolving `bar` with only
`ucrt64/bin/bar.exe` present returns that path. -/
theorem claim_C4 :
    (∀ (cfg : Packager) (fs : List FsPath) (name : String),
      lookup_msys2_file cfg fs name = (lookupCandidates cfg name).find? (pathExists fs)) ∧
    lookup_msys2_file c4cfg [c4LibFoo, c4BinFoo] ("foo.dll") = some c4LibFoo ∧
    lookup_msys2_file c4cfg [c4BinBarExe] ("bar") = some c4BinBarExe :=
  ⟨lookup_eq_find, by decide, by decide⟩

/-! ### Claim C6: the system-DLL classifier -/

set_option maxHeartbeats 1000000 in
/-- C6: `is_system_dll` lower-cases and strips `.dll`/`.drv` suffixes and
tests the fixed allow-list; every name of the spec's minimum list is
accepted, `KERNEL32.dll` is accepted, `libgstplayback.dll` is not. -/
theorem claim_C6 :
    specMinimumSystemList.all is_system_dll = true ∧
    is_system_dll ("KERNEL32.dll") = true ∧
    is_system_dll ("libgstplayback.dll") = false := by
  decide

/-! ### Claim C7: the target-triple mapping -/

set_option maxHeartbeats 4000000 in
/-- C7: the five supported triples map to their environments and every
other string is unsupported. -/
theorem claim_C7 :
    target_triple_to_msys2_environment ("aarch64-pc-windows-gnullvm")
      = some Msys2Environment.ClangArm64 ∧
    target_triple_to_msys2_environment ("i686-pc-windows-gnu")
      = some Msys2Environment.Mingw32 ∧
    target_triple_to_msys2_environment ("x86_64-pc-windows-gnu")
      = some Msys2Environment.Mingw64 ∧
    target_triple_to_msys2_environment ("x86_64-pc-windows-gnullvm")
      = some Msys2Environment.Clang64 ∧
    target_triple_to_msys2_environment ("x86_64-uwp-windows-gnu")
      = some Msys2Environment.Ucrt64 ∧
    ∀ t : String,
      t ≠ "aarch64-pc-windows-gnullvm" →
      t ≠ "i686-pc-windows-gnu" →
      t ≠ "x86_64-pc-windows-gnu" →
      t ≠ "x86_64-pc-windows-gnullvm" →
      t ≠ "x86_64-uwp-windows-gnu" →
      target_triple_to_msys2_environment t = none := by
  refine ⟨by decide, by decide, by decide, by decide, by decide, ?_⟩
  intro t h1 h2 h3 h4 h5
  unfold target_triple_to_msys2_environment
  split_ifs <;> first | rfl | (exfalso; solve_by_elim)

/-- Witness for C7: the unsupported triple `x86_64-pc-windows-msvc`. -/
theorem claim_C7_witness :
    target_triple_to_msys2_environment ("x86_64-pc-windows-msvc") = none :=
  claim_C7.2.2.2.2.2 ("x86_64-pc-windows-msvc")
    (by decide) (by decide) (by decide) (by decide) (by decide)

/-! ### Claim C3: Phase 2 registration errors -/

theorem resolvePhase_err_of_bad (cfg : Packager) (w : World) :
    ∀ files : List File, (∃ f ∈ files, f.src = none ∧ BadDestB f.dest = true) →
    ∃ e, resolvePhase cfg w files = .error e := by
  intro files h
  induction files with
  | nil => simp at h
  | cons f rest ih =>
    rcases h with ⟨g, hg, hsrc, hbad⟩
    rcases hsome : f.src with _ | p
    · -- f is unresolved: analyse its dest shape
      rcases hd : f.dest with _ | ⟨c, t⟩
      · exact ⟨PkgError.noComponents [], by simp [resolvePhase, hsome, hd]⟩
      · rcases t with _ | ⟨c2, t2⟩
        · rcases c with _ | _ | _ | s
          · exact ⟨PkgError.notValidDllName [Component.rootDir], by simp [resolvePhase, hsome, hd]⟩
          · exact ⟨PkgError.notValidDllName [Component.curDir], by simp [resolvePhase, hsome, hd]⟩
          · exact ⟨PkgError.notValidDllName [Component.parentDir], by simp [resolvePhase, hsome, hd]⟩
          · -- dest is a single normal component: the bad entry is in `rest`
            have hgrest : g ∈ rest := by
              rcases List.mem_cons.mp hg with rfl | h2
              · rw [hd] at hbad; simp [BadDestB] at hbad
              · exact h2
            obtain ⟨e, he⟩ := ih ⟨g, hgrest, hsrc, hbad⟩
            rcases hl : lookup_msys2_file cfg w.fs s with _ | p2
            · exact ⟨PkgError.missingLibrary s, by simp [resolvePhase, hsome, hd, hl]⟩
            · exact ⟨e, by simp [resolvePhase, hsome, hd, hl, he]⟩
        · exact ⟨PkgError.tooManyComponents (c :: c2 :: t2), by simp [resolvePhase, hsome, hd]⟩
    · -- f is already resolved: the bad entry is in `rest`
      have hgrest : g ∈ rest := by
        rcases List.mem_cons.mp hg with rfl | h2
        · rw [hsome] at hsrc; exact absurd hsrc (by simp)
        · exact h2
      obtain ⟨e, he⟩ := ih ⟨g, hgrest, hsrc, hbad⟩
      exact ⟨e, by simp [resolvePhase, hsome, he]⟩

/-- C3 (amended): `package` fails before any file is copied whenever some
staging entry has an absent src and a dest that is not a single normal
component; in particular an unresolved entry with a two-component dest
fails with the longer-than-one-component registration error. The flags
condition of the original claim is not checked by the code
(see `claim_C3_cx`). -/
theorem claim_C3_amended :
    (∀ (cfg : Packager) (w : World) (fuel : Nat),
      (∃ f ∈ cfg.files, f.src = none ∧ BadDestB f.dest = true) →
      ∃ e, package cfg w fuel = .err e w.fs []) ∧
    package c3cfgBad c3world 1 = .err (PkgError.tooManyComponents c3destBad) c3world.fs [] := by
  constructor
  · intro cfg w fuel h
    obtain ⟨e, he⟩ := resolvePhase_err_of_bad cfg w cfg.files h
    exact ⟨e, by simp [package, he]⟩
  · decide

/-- Counterexample to C3 as stated: an unresolved entry whose flags contain
neither LIB nor EXE does not make `package` fail — this run succeeds. -/
theorem claim_C3_cx :
    c3ent ∈ c3cfg.files ∧ c3ent.src = none ∧ c3ent.flags.lib = false ∧
    c3ent.flags.exe = false ∧
    package c3cfg c3world 2 =
      .ok [c3entResolved] [c3outBar, c3LibBarDll] [Action.copy c3LibBarDll c3outBar] := by
  decide

/-- Witness for C3: the two-component-dest registration fails with no copy. -/
theorem claim_C3_witness :
    (∃ f ∈ c3cfgBad.files, f.src = none ∧ BadDestB f.dest = true) ∧
    (∃ e, package c3cfgBad c3world 1 = .err e c3world.fs []) :=
  ⟨by decide, claim_C3_amended.1 c3cfgBad c3world 1 (by decide)⟩

/-! ### Claim C8: Phase 4 policy errors -/

theorem materialize_fail_of_offending (cfg : Packager) :
    ∀ (files : List File) (fs : List FsPath), (∃ f ∈ files, OffendingB f = true) →
    ∃ e fs2 acts, materialize cfg fs files = .fail e fs2 acts := by
  intro files
  induction files with
  | nil => intro fs h; simp at h
  | cons f rest ih =>
    intro fs h
    by_cases hrel : isRelative f.dest = true
    case neg =>
      exact ⟨PkgError.absoluteDest f.dest, fs, [], by simp [materialize, hrel]⟩
    case pos =>
      rcases hsrc : f.src with _ | p
      · exact ⟨PkgError.panicUnresolved f.dest, fs, [], by simp [materialize, hrel, hsrc]⟩
      · by_cases hcw : startsWithCWindows p = true
        · exact ⟨PkgError.systemDirSrc p, fs, [], by simp [materialize, hrel, hsrc, hcw]⟩
        · have hOf : OffendingB f = false := by
            simp [OffendingB, hrel, hsrc, hcw]
          rcases h with ⟨g, hg, hOg⟩
          have hgrest : g ∈ rest := by
            rcases List.mem_cons.mp hg with rfl | h2
            · rw [hOf] at hOg; exact absurd hOg (by simp)
            · exact h2
          by_cases hex : pathExists fs (cfg.out_dir ++ f.dest) = true
          · obtain ⟨e, fs2, acts, he⟩ := ih fs ⟨g, hgrest, hOg⟩
            exact ⟨e, fs2, acts, by simp [materialize, hrel, hsrc, hcw, hex, he]⟩
          · obtain ⟨e, fs2, acts, he⟩ := ih ((cfg.out_dir ++ f.dest) :: fs) ⟨g, hgrest, hOg⟩
            refine ⟨e, fs2,
              (if cfg.upx && f.flags.upx && (f.flags.lib || f.flags.exe) then
                [Action.copy p (cfg.out_dir ++ f.dest), Action.compress (cfg.out_dir ++ f.dest)]
               else [Action.copy p (cfg.out_dir ++ f.dest)]) ++ acts, ?_⟩
            simp [materialize, hrel, hsrc, hcw, hex, he]

/-- C8 (amended): Phase 4 fails whenever some staging entry has a
non-relative dest or a resolved src under `c:/windows`, but copies of
earlier entries may already have been performed (see `claim_C8_cx`); when
the offending entry is the sole entry, `package` fails with the
system-directory error before any copy. -/
theorem claim_C8_amended :
    (∀ (cfg : Packager) (files : List File) (fs : List FsPath),
      (∃ f ∈ files, OffendingB f = true) →
      ∃ e fs2 acts, materialize cfg fs files = .fail e fs2 acts) ∧
    package c8cfgSingle c8world 1 = .err (PkgError.systemDirSrc c8srcKernel) [] [] :=
  ⟨fun cfg files fs h => materialize_fail_of_offending cfg files fs h, by decide⟩

/-- Counterexample to C8 as stated: with a well-formed entry registered
before the offending one, `package` fails only after copying the first
entry, not before any copy. -/
theorem claim_C8_cx :
    c8entKernel ∈ c8cfg.files ∧ startsWithCWindows c8srcKernel = true ∧
    package c8cfg c8world 1 =
      .err (PkgError.systemDirSrc c8srcKernel) [c8outGood] [Action.copy c8srcGood c8outGood] := by
  decide

/-- Witness for C8: the single kernel32 entry is offending and fails. -/
theorem claim_C8_witness :
    (∃ f ∈ c8cfgSingle.files, OffendingB f = true) ∧
    (∃ e fs2 acts, materialize c8cfgSingle c8world.fs c8cfgSingle.files = .fail e fs2 acts) :=
  ⟨by decide, claim_C8_amended.1 c8cfgSingle c8cfgSingle.files c8world.fs (by decide)⟩

/-! ### Claim C10: the Phase 2 frame property -/

theorem resolvePhase_frame (cfg : Packager) (w : World) :
    ∀ files files2, resolvePhase cfg w files = .ok files2 →
    List.Forall₂ (ResolveRel cfg w) files files2 := by
  intro files
  induction files with
  | nil =>
    intro files2 h
    simp only [resolvePhase] at h
    cases h
    exact List.Forall₂.nil
  | cons f rest ih =>
    intro files2 h
    rcases hsome : f.src with _ | p
    · rcases hd : f.dest with _ | ⟨c, t⟩
      · simp [resolvePhase, hsome, hd] at h
      · rcases t with _ | ⟨c2, t2⟩
        · rcases c with _ | _ | _ | s
          · simp [resolvePhase, hsome, hd] at h
          · simp [resolvePhase, hsome, hd] at h
          · simp [resolvePhase, hsome, hd] at h
          · rcases hl : lookup_msys2_file cfg w.fs s with _ | src
            · simp [resolvePhase, hsome, hd, hl] at h
            · rcases hr : resolvePhase cfg w rest with e | rest2
              · simp [resolvePhase, hsome, hd, hl, hr] at h
              · simp only [resolvePhase, hsome, hd, hl, hr] at h
                cases h
                refine List.Forall₂.cons ?_ (ih rest2 hr)
                refine ⟨hd.symm, rfl, ?_, ?_⟩
                · intro hs; rw [hsome] at hs; simp at hs
                · intro _; exact ⟨s, src, hd, hl, rfl⟩
        · simp [resolvePhase, hsome, hd] at h
    · rcases hr : resolvePhase cfg w rest with e | rest2
      · simp [resolvePhase, hsome, hr] at h
      · simp only [resolvePhase, hsome, hr] at h
        cases h
        refine List.Forall₂.cons ?_ (ih rest2 hr)
        exact ⟨rfl, rfl, fun _ => rfl, fun hn => by rw [hn] at hsome; cases hsome⟩

/-- C10: Phase 2 mutates only the `src` field of entries whose src is
absent; every entry's dest and flags are unchanged, a present src is
unchanged, and the length (and order) of the staging list is unchanged. -/
theorem claim_C10 :
    ∀ (cfg : Packager) (w : World) (files2 : List File),
    resolvePhase cfg w cfg.files = .ok files2 →
    files2.length = cfg.files.length ∧
    List.Forall₂
      (fun f g => g.dest = f.dest ∧ g.flags = f.flags ∧ (f.src.isSome → g.src = f.src))
      cfg.files files2 := by
  intro cfg w files2 h
  have hf := resolvePhase_frame cfg w cfg.files files2 h
  refine ⟨hf.length_eq.symm, List.Forall₂.imp ?_ hf⟩
  intro a b hr
  exact ⟨hr.1, hr.2.1, hr.2.2.1⟩

/-- Witness for C10: the resolution of the C3 configuration. -/
theorem claim_C10_witness :
    resolvePhase c3cfg c3world c3cfg.files = .ok [c3entResolved] ∧
    [c3entResolved].length = c3cfg.files.length ∧
    List.Forall₂
      (fun f g => g.dest = f.dest ∧ g.flags = f.flags ∧ (f.src.isSome → g.src = f.src))
      c3cfg.files [c3entResolved] :=
  ⟨by decide, claim_C10 c3cfg c3world [c3entResolved] (by decide)⟩

/-! ### String lemmas for claim C5 -/

theorem hasSuffix_iff (s pat : List Char) : hasSuffix s pat = true ↔ ∃ t, s = t ++ pat := by
  unfold hasSuffix
  rw [Bool.and_eq_true, decide_eq_true_eq, decide_eq_true_eq]
  constructor
  · rintro ⟨hle, hdrop⟩
    refine ⟨s.take (s.length - pat.length), ?_⟩
    conv_lhs => rw [← List.take_append_drop (s.length - pat.length) s]
    rw [hdrop]
  · rintro ⟨t, rfl⟩
    refine ⟨by simp [List.length_append], ?_⟩
    have h2 : t.length + pat.length - pat.length = t.length := by omega
    rw [List.length_append, h2, List.drop_left]

theorem patRep_cons (pat : List Char) (n : Nat) : patRep pat (n + 1) = pat ++ patRep pat n := by
  induction n with
  | zero => simp [patRep]
  | succ n ih =>
    show patRep pat (n + 1) ++ pat = pat ++ (patRep pat n ++ pat)
    rw [ih, List.append_assoc]

theorem patRep_length (pat : List Char) (n : Nat) :
    (patRep pat n).length = n * pat.length := by
  induction n with
  | zero => simp [patRep]
  | succ n ih => simp [patRep, List.length_append, ih]; ring

theorem trimEndAux_no_suffix (pat : List Char) (fuel : Nat) (s : List Char)
    (h : hasSuffix s pat = false) : trimEndAux pat fuel s = s := by
  cases fuel with
  | zero => rfl
  | succ fuel => simp [trimEndAux, h]

theorem trimEndAux_decomp (pat : List Char) (hp : pat ≠ []) :
    ∀ (fuel : Nat) (s : List Char), s.length ≤ fuel →
    ∃ n, s = trimEndAux pat fuel s ++ patRep pat n ∧
      hasSuffix (trimEndAux pat fuel s) pat = false := by
  intro fuel
  induction fuel with
  | zero =>
    intro s hs
    have hnil : s = [] := List.length_eq_zero.mp (Nat.le_zero.mp hs)
    subst hnil
    refine ⟨0, by simp [trimEndAux, patRep], ?_⟩
    have hlen : pat.length ≠ 0 := by simpa [List.length_eq_zero] using hp
    simp [hasSuffix, Nat.le_zero, hlen, trimEndAux]
  | succ fuel ih =>
    intro s hs
    cases hsuf : hasSuffix s pat with
    | false =>
      rw [trimEndAux_no_suffix pat _ s hsuf]
      exact ⟨0, by simp [patRep], hsuf⟩
    | true =>
      obtain ⟨t, hts⟩ := (hasSuffix_iff s pat).mp hsuf
      have htlen : t.length + pat.length - pat.length = t.length := by omega
      have htake : s.take (s.length - pat.length) = t := by
        rw [hts, List.length_append, htlen, List.take_left]
      have hstep : trimEndAux pat (fuel + 1) s = trimEndAux pat fuel t := by
        simp only [trimEndAux]
        rw [if_pos ⟨hp, hsuf⟩, htake]
      have hplen : 0 < pat.length := List.length_pos.mpr hp
      have htfuel : t.length ≤ fuel := by
        rw [hts, List.length_append] at hs; omega
      obtain ⟨n, hdec, hns⟩ := ih t htfuel
      refine ⟨n + 1, ?_, by rw [hstep]; exact hns⟩
      rw [hstep, hts]
      conv_lhs => rw [hdec]
      rw [List.append_assoc]
      rfl

theorem trimEndAux_strip (pat : List Char) (hp : pat ≠ []) :
    ∀ (n fuel : Nat) (x : List Char), hasSuffix x pat = false → n ≤ fuel →
    trimEndAux pat fuel (x ++ patRep pat n) = x := by
  intro n
  induction n with
  | zero =>
    intro fuel x hx _
    rw [show patRep pat 0 = [] from rfl, List.append_nil]
    exact trimEndAux_no_suffix pat fuel x hx
  | succ n ih =>
    intro fuel x hx hle
    cases fuel with
    | zero => omega
    | succ fuel =>
      have hshape : x ++ patRep pat (n + 1) = (x ++ patRep pat n) ++ pat := by
        rw [show patRep pat (n + 1) = patRep pat n ++ pat from rfl, List.append_assoc]
      have hsuf : hasSuffix (x ++ patRep pat (n + 1)) pat = true := by
        rw [hshape]; exact (hasSuffix_iff _ _).mpr ⟨_, rfl⟩
      have hlen : (x ++ patRep pat n).length + pat.length - pat.length
          = (x ++ patRep pat n).length := by omega
      have htake : (x ++ patRep pat (n + 1)).take
          ((x ++ patRep pat (n + 1)).length - pat.length) = x ++ patRep pat n := by
        rw [hshape, List.length_append, hlen, List.take_left]
      simp only [trimEndAux]
      rw [if_pos ⟨hp, hsuf⟩, htake]
      exact ih fuel x hx (by omega)

theorem trimEndList_decomp (s pat : List Char) (hp : pat ≠ []) :
    ∃ n, s = trimEndList s pat ++ patRep pat n ∧
      hasSuffix (trimEndList s pat) pat = false :=
  trimEndAux_decomp pat hp s.length s le_rfl

theorem trimEndList_strip (pat : List Char) (hp : pat ≠ []) (x : List Char) (n : Nat)
    (hx : hasSuffix x pat = false) : trimEndList (x ++ patRep pat n) pat = x := by
  unfold trimEndList
  apply trimEndAux_strip pat hp n _ x hx
  have h1 : 0 < pat.length := List.length_pos.mpr hp
  have h2 : (patRep pat n).length = n * pat.length := patRep_length pat n
  have h3 : n ≤ n * pat.length := Nat.le_mul_of_pos_right n h1
  rw [List.length_append, h2]
  omega

theorem stripPre_eq_some {pre s r : List Char} : stripPre pre s = some r ↔ s = pre ++ r := by
  unfold stripPre
  cases hb : pre.isPrefixOf s with
  | false =>
    simp only [Bool.false_eq_true, if_false]
    constructor
    · intro h; cases h
    · intro heq
      have hpre : pre.isPrefixOf s = true :=
        List.isPrefixOf_iff_prefix.mpr ⟨r, heq.symm⟩
      rw [hb] at hpre; cases hpre
  | true =>
    obtain ⟨t, ht⟩ := List.isPrefixOf_iff_prefix.mp hb
    subst ht
    rw [if_pos rfl, List.drop_left]
    constructor
    · intro h; cases h; rfl
    · intro heq
      have := List.append_cancel_left heq
      rw [this]

theorem stripPre_self (pre r : List Char) : stripPre pre (pre ++ r) = some r :=
  stripPre_eq_some.mpr rfl

theorem stripPre_api_ext (r : List Char) : stripPre apiChars (extChars ++ r) = none := by
  cases hq : stripPre apiChars (extChars ++ r) with
  | none => rfl
  | some r2 =>
    exfalso
    have heq := stripPre_eq_some.mp hq
    have hl : (extChars ++ r).take 4 = extChars := by
      rw [show (4 : Nat) = extChars.length from rfl, List.take_left]
    have hr2 : (apiChars ++ r2).take 4 = apiChars := by
      rw [show (4 : Nat) = apiChars.length from rfl, List.take_left]
    have h4 := congrArg (List.take 4) heq
    rw [hl, hr2] at h4
    exact absurd h4 (by decide)

theorem rsplit_none_not_mem (c : Char) : ∀ s : List Char,
    rsplitOnceCl c s = none → c ∉ s := by
  intro s
  induction s with
  | nil => intro _ h; cases h
  | cons x rest ih =>
    intro h
    simp only [rsplitOnceCl] at h
    rcases hr : rsplitOnceCl c rest with _ | p
    · rw [hr] at h
      by_cases hxc : x = c
      · rw [if_pos hxc] at h; cases h
      · intro hmem
        rcases List.mem_cons.mp hmem with heq | hm
        · exact hxc heq.symm
        · exact ih hr hm
    · rw [hr] at h; cases h

theorem rsplit_some_decomp {c : Char} : ∀ {s b a : List Char},
    rsplitOnceCl c s = some (b, a) → s = b ++ c :: a ∧ c ∉ a := by
  intro s
  induction s with
  | nil => intro b a h; cases h
  | cons x rest ih =>
    intro b a h
    simp only [rsplitOnceCl] at h
    rcases hr : rsplitOnceCl c rest with _ | ⟨b2, a2⟩
    · rw [hr] at h
      by_cases hxc : x = c
      · rw [if_pos hxc] at h
        injection h with h2
        rw [Prod.mk.injEq] at h2
        obtain ⟨h3, h4⟩ := h2
        subst hxc
        rw [← h3, ← h4]
        exact ⟨rfl, rsplit_none_not_mem x rest hr⟩
      · rw [if_neg hxc] at h; cases h
    · rw [hr] at h
      injection h with h2
      rw [Prod.mk.injEq] at h2
      obtain ⟨h3, h4⟩ := h2
      obtain ⟨hdec, hnin⟩ := ih hr
      subst h3 h4
      exact ⟨by rw [hdec]; rfl, hnin⟩

theorem rsplit_append (c : Char) : ∀ (b a : List Char), c ∉ a →
    rsplitOnceCl c (b ++ c :: a) = some (b, a) := by
  intro b
  induction b with
  | nil =>
    intro a ha
    have hnone : rsplitOnceCl c a = none := by
      rcases hr : rsplitOnceCl c a with _ | ⟨b2, a2⟩
      · rfl
      · obtain ⟨heq, _⟩ := rsplit_some_decomp hr
        exact absurd (by rw [heq]; exact List.mem_append_right b2 (List.mem_cons_self c a2)) ha
    simp only [List.nil_append, rsplitOnceCl, hnone]
    simp
  | cons x b ih =>
    intro a ha
    show rsplitOnceCl c (x :: (b ++ c :: a)) = _
    simp only [rsplitOnceCl, ih a ha]

theorem splitOn_ne_nil (c : Char) : ∀ s : List Char, splitOnCl c s ≠ [] := by
  intro s
  induction s with
  | nil => simp [splitOnCl]
  | cons a rest ih =>
    simp only [splitOnCl]
    by_cases hac : a = c
    · simp [hac]
    · rcases hr : splitOnCl c rest with _ | ⟨h, t⟩
      · exact absurd hr ih
      · simp [hac, hr]

theorem splitOn_mem (c : Char) : ∀ (s : List Char) (ch : Char), ch ∈ s →
    ch = c ∨ ∃ p ∈ splitOnCl c s, ch ∈ p := by
  intro s
  induction s with
  | nil => intro ch h; cases h
  | cons a rest ih =>
    intro ch hch
    rcases List.mem_cons.mp hch with rfl | hm
    · by_cases hac : ch = c
      · exact Or.inl hac
      · right
        rcases hr : splitOnCl c rest with _ | ⟨h, t⟩
        · exact absurd hr (splitOn_ne_nil c rest)
        · refine ⟨ch :: h, ?_, List.mem_cons_self _ _⟩
          simp only [splitOnCl, hr]
          rw [if_neg hac]
          exact List.mem_cons_self _ _
    · rcases ih ch hm with hc | ⟨p, hp, hchp⟩
      · exact Or.inl hc
      · right
        by_cases hac : a = c
        · refine ⟨p, ?_, hchp⟩
          simp only [splitOnCl]
          rw [if_pos hac]
          exact List.mem_cons_of_mem _ hp
        · rcases hr : splitOnCl c rest with _ | ⟨h, t⟩
          · exact absurd hr (splitOn_ne_nil c rest)
          · rw [hr] at hp
            rcases List.mem_cons.mp hp with rfl | hpt
            · refine ⟨a :: p, ?_, List.mem_cons_of_mem a hchp⟩
              simp only [splitOnCl, hr]
              rw [if_neg hac]
              exact List.mem_cons_self _ _
            · refine ⟨p, ?_, hchp⟩
              simp only [splitOnCl, hr]
              rw [if_neg hac]
              exact List.mem_cons_of_mem _ hpt

theorem parseU32_chars {p : List Char} (h : (parseU32Cl p).isSome = true) :
    ∀ ch ∈ p, ch.isDigit = true ∨ ch = '+' := by
  intro ch hch
  unfold parseU32Cl at h
  have key : ∀ digits : List Char,
      ((if digits = [] then (none : Option Nat)
        else if digits.all Char.isDigit then
          (if (digits.foldl (fun acc c => acc * 10 + (c.toNat - 48)) 0) < 4294967296 then
            some (digits.foldl (fun acc c => acc * 10 + (c.toNat - 48)) 0) else none)
        else none).isSome = true) → digits.all Char.isDigit = true := by
    intro digits hh
    split_ifs at hh with h1 h2 h3
    · simp at hh
    · exact h2
    · simp at hh
    · simp at hh
  have hall := key (if p.head? = some '+' then p.tail else p) h
  by_cases hplus : p.head? = some '+'
  · rw [if_pos hplus] at hall
    rcases p with _ | ⟨c0, t⟩
    · cases hch
    · have hc0 : c0 = '+' := by
        simp only [List.head?] at hplus
        injection hplus
      rcases List.mem_cons.mp hch with rfl | hm
      · exact Or.inr hc0
      · exact Or.inl (by simpa using List.all_eq_true.mp hall ch hm)
  · rw [if_neg hplus] at hall
    exact Or.inl (by simpa using List.all_eq_true.mp hall ch hch)

theorem numsOkCode_chars {nums : List Char} (h : NumsOkCode nums) :
    ∀ ch ∈ nums, ch.isDigit = true ∨ ch = '-' ∨ ch = '+' := by
  intro ch hch
  rcases splitOn_mem '-' nums ch hch with rfl | ⟨p, hp, hchp⟩
  · exact Or.inr (Or.inl rfl)
  · have hpne : p ≠ [] := by
      intro he; rw [he] at hchp; cases hchp
    have hpp : p ∈ numsParts nums := by
      unfold numsParts
      exact List.mem_filter.mpr ⟨hp, by simp [hpne]⟩
    rcases parseU32_chars (h.2 p hpp) ch hchp with hd | hpl
    · exact Or.inl hd
    · exact Or.inr (Or.inr hpl)

theorem numsOkSpec_chars {nums : List Char} (h : NumsOkSpec nums) :
    ∀ ch ∈ nums, ch.isDigit = true ∨ ch = '-' := by
  intro ch hch
  rcases splitOn_mem '-' nums ch hch with rfl | ⟨p, hp, hchp⟩
  · exact Or.inr rfl
  · have hpne : p ≠ [] := by
      intro he; rw [he] at hchp; cases hchp
    have hpp : p ∈ numsParts nums := by
      unfold numsParts
      exact List.mem_filter.mpr ⟨hp, by simp [hpne]⟩
    exact Or.inl ((h.2 p hpp).2 ch hchp)

theorem numsOkCode_ne_nil {nums : List Char} (h : NumsOkCode nums) : nums ≠ [] := by
  intro he
  rw [he] at h
  exact absurd h.1 (by decide)

theorem getLast?_append_four (t : List Char) (a b c d : Char) :
    (t ++ [a, b, c, d]).getLast? = some d := by
  rw [show t ++ [a, b, c, d] = (t ++ [a, b, c]) ++ [d] by simp]
  exact List.getLast?_concat _

theorem hasSuffix_dll_last {x : List Char} (h : hasSuffix x dllChars = true) :
    x.getLast? = some 'l' := by
  obtain ⟨t, rfl⟩ := (hasSuffix_iff x dllChars).mp h
  exact getLast?_append_four t '.' 'd' 'l' 'l'

theorem last_of_append_cons {core nums : List Char} (hn : nums ≠ []) :
    (core ++ 'l' :: nums).getLast? = nums.getLast? := by
  rcases List.eq_nil_or_concat nums with rfl | ⟨ns, nl, rfl⟩
  · exact absurd rfl hn
  · rw [List.concat_eq_append]
    rw [show core ++ 'l' :: (ns ++ [nl]) = (core ++ 'l' :: ns) ++ [nl] by simp]
    rw [List.getLast?_concat, List.getLast?_concat]

/-! ### Claim C5: the API-set classifier vs the grammar -/

theorem stripPhase_some {s s1 : List Char}
    (h : (match stripPre apiChars s with
          | some r => some r
          | none => stripPre extChars s) = some s1) :
    ∃ pre, (pre = apiChars ∨ pre = extChars) ∧ s = pre ++ s1 := by
  rcases ha : stripPre apiChars s with _ | r
  · rw [ha] at h
    exact ⟨extChars, Or.inr rfl, stripPre_eq_some.mp h⟩
  · rw [ha] at h
    injection h with h2
    subst h2
    exact ⟨apiChars, Or.inl rfl, stripPre_eq_some.mp ha⟩

theorem stripPhase_build {pre : List Char} (X : List Char)
    (hpre : pre = apiChars ∨ pre = extChars) :
    (match stripPre apiChars (pre ++ X) with
     | some r => some r
     | none => stripPre extChars (pre ++ X)) = some X := by
  rcases hpre with rfl | rfl
  · rw [stripPre_self]
  · rw [stripPre_api_ext, stripPre_self]

theorem apiSetCl_iff_grammar (s : List Char) :
    apiSetCl s = true ↔ ApiSetGrammarAmended s := by
  constructor
  · intro h
    unfold apiSetCl at h
    rcases hstrip : (match stripPre apiChars s with
                     | some r => some r
                     | none => stripPre extChars s) with _ | s1
    · simp only [hstrip] at h
      exact Bool.noConfusion h
    · simp only [hstrip] at h
      obtain ⟨pre, hpre, hs⟩ := stripPhase_some hstrip
      obtain ⟨n, hdec, _⟩ := trimEndList_decomp s1 dllChars (by decide)
      rcases hrs : rsplitOnceCl 'l' (trimEndList s1 dllChars) with _ | ⟨core, rest⟩
      · simp only [hrs] at h
        exact Bool.noConfusion h
      · simp only [hrs] at h
        obtain ⟨hsplit, _⟩ := rsplit_some_decomp hrs
        by_cases hcond : ((splitOnCl '-' rest).filter (fun p => decide (p ≠ []))).length = 3 ∧
            ((splitOnCl '-' rest).filter (fun p => decide (p ≠ []))).all
              (fun p => (parseU32Cl p).isSome) = true
        · rw [if_pos hcond] at h
          refine ⟨pre, core, rest, n, hpre, ?_, ?_, ?_⟩
          · rw [hs, hdec, hsplit]
            simp [List.append_assoc]
          · intro c hc
            have := List.all_eq_true.mp h c hc
            simpa [Bool.or_eq_true, decide_eq_true_eq] using this
          · exact ⟨hcond.1, fun p hp => List.all_eq_true.mp hcond.2 p hp⟩
        · rw [if_neg hcond] at h; cases h
  · intro h
    obtain ⟨pre, core, nums, n, hpre, rfl, hcore, hnums⟩ := h
    unfold apiSetCl
    simp only [stripPhase_build (core ++ 'l' :: (nums ++ patRep dllChars n)) hpre]
    have hX : core ++ 'l' :: (nums ++ patRep dllChars n)
        = (core ++ 'l' :: nums) ++ patRep dllChars n := by simp
    have hnn : nums ≠ [] := numsOkCode_ne_nil hnums
    have hlast : hasSuffix (core ++ 'l' :: nums) dllChars = false := by
      cases hsuf : hasSuffix (core ++ 'l' :: nums) dllChars with
      | false => rfl
      | true =>
        exfalso
        have h1 := hasSuffix_dll_last hsuf
        rw [last_of_append_cons hnn] at h1
        rcases List.eq_nil_or_concat nums with rfl | ⟨ns, nl, hnl⟩
        · exact hnn rfl
        · rw [hnl, List.concat_eq_append, List.getLast?_concat] at h1
          injection h1 with h2
          have hmem : nl ∈ nums := by
            rw [hnl, List.concat_eq_append]
            exact List.mem_append_right ns (List.mem_cons_self nl [])
          rw [h2] at hmem
          rcases numsOkCode_chars hnums 'l' hmem with hd | hm | hp2
          · exact absurd hd (by decide)
          · exact absurd hm (by decide)
          · exact absurd hp2 (by decide)
    have hlnin : 'l' ∉ nums := by
      intro hmem
      rcases numsOkCode_chars hnums 'l' hmem with hd | hm | hp2
      · exact absurd hd (by decide)
      · exact absurd hm (by decide)
      · exact absurd hp2 (by decide)
    simp only [hX, trimEndList_strip dllChars (by decide) (core ++ 'l' :: nums) n hlast,
      rsplit_append 'l' core nums hlnin]
    rw [if_pos ⟨hnums.1, List.all_eq_true.mpr hnums.2⟩]
    exact List.all_eq_true.mpr (fun c hc => by
      rcases hcore c hc with h1 | h1
      · simp [charAlnum] at h1 ⊢
        exact Or.inl h1
      · simp [h1])

/-- C5 (amended): `is_api_set_dll` accepts exactly the API-set grammar with
two amendments forced by the code: any number of trailing `.dll` copies is
accepted (`trim_end_matches` strips them all), and the three integer tokens
are those accepted by Rust `u32` parsing (optional leading `+`, value below
2^32) rather than arbitrary decimal-digit strings. All six concrete
examples of the original claim hold as stated. -/
theorem claim_C5_amended :
    (∀ s : List Char, apiSetCl s = true ↔ ApiSetGrammarAmended s) ∧
    is_api_set_dll ("api-ms-win-core-synch-l1-2-0.dll") = true ∧
    is_api_set_dll ("ext-ms-win-foo-l1-1-0.dll") = true ∧
    is_api_set_dll ("api-ms-win-core-synch.dll") = false ∧
    is_api_set_dll ("api-ms-win-core-synch-l1-2-0-0.dll") = false ∧
    is_api_set_dll ("ms-win-core-synch-l1-2-0.dll") = false ∧
    is_api_set_dll ("api-foo.dll") = false :=
  ⟨apiSetCl_iff_grammar, by decide, by decide, by decide, by decide, by decide, by decide⟩

/-- Counterexample to C5 as stated: `api-al1-2-3.dll.dll` is accepted by the
code (both trailing `.dll` runs are trimmed) but does not match the claim's
grammar, which allows at most one `.dll` suffix. -/
theorem claim_C5_cx :
    is_api_set_dll ("api-al1-2-3.dll.dll") = true ∧
    ¬ ApiSetGrammarSpec (("api-al1-2-3.dll.dll").toList) := by
  constructor
  · decide
  · rintro ⟨pre, core, nums, suf, hpre, hsuf, heq, hcore, hnums⟩
    have hpreEq : pre = apiChars := by
      have h1 : (("api-al1-2-3.dll.dll").toList).take 4 = apiChars := by decide
      rcases hpre with rfl | rfl
      · rfl
      · exfalso
        rw [heq] at h1
        rw [show (4 : Nat) = extChars.length from rfl, List.take_left] at h1
        exact absurd h1 (by decide)
    subst hpreEq
    have hdrop := congrArg (List.drop 4) heq
    rw [show (4 : Nat) = apiChars.length from rfl, List.drop_left] at hdrop
    have hX : ("al1-2-3.dll.dll").toList = core ++ 'l' :: (nums ++ suf) :=
      (show ("al1-2-3.dll.dll").toList
          = (("api-al1-2-3.dll.dll").toList).drop apiChars.length by decide).trans hdrop
    have hdot_core : ('.') ∉ core := by
      intro hmem
      rcases hcore '.' hmem with h1 | h1
      · exact absurd h1 (by decide)
      · exact absurd h1 (by decide)
    have hdot_nums : ('.') ∉ nums := by
      intro hmem
      rcases numsOkSpec_chars hnums '.' hmem with h1 | h1
      · exact absurd h1 (by decide)
      · exact absurd h1 (by decide)
    rcases hsuf with rfl | rfl
    · have hmem : ('.') ∈ core ++ 'l' :: (nums ++ ([] : List Char)) := by
        rw [← hX]; decide
      rcases List.mem_append.mp hmem with h1 | h1
      · exact hdot_core h1
      · rcases List.mem_cons.mp h1 with h2 | h2
        · exact absurd h2 (by decide)
        · rw [List.append_nil] at h2
          exact hdot_nums h2
    · have hY : core ++ 'l' :: nums = ("al1-2-3.dll").toList := by
        have hshape : core ++ 'l' :: (nums ++ dllChars) = (core ++ 'l' :: nums) ++ dllChars := by
          simp
        rw [hshape] at hX
        rw [show ("al1-2-3.dll.dll").toList = ("al1-2-3.dll").toList ++ dllChars by decide] at hX
        exact (List.append_cancel_right hX).symm
      have hmem : ('.') ∈ core ++ 'l' :: nums := by rw [hY]; decide
      rcases List.mem_append.mp hmem with h1 | h1
      · exact hdot_core h1
      · rcases List.mem_cons.mp h1 with h2 | h2
        · exact absurd h2 (by decide)
        · exact hdot_nums h2

/-! ### Claim C9: skip-if-exists and run-twice idempotence -/

theorem pathExists_iff {fs : List FsPath} {p : FsPath} : pathExists fs p = true ↔ p ∈ fs := by
  simp [pathExists]

theorem materialize_skip (cfg : Packager) (fs : List FsPath) (f : File) (rest : List File)
    (p : FsPath) (hrel : isRelative f.dest = true) (hsrc : f.src = some p)
    (hcw : startsWithCWindows p = false)
    (hex : pathExists fs (cfg.out_dir ++ f.dest) = true) :
    materialize cfg fs (f :: rest) = materialize cfg fs rest := by
  simp [materialize, hrel, hsrc, hcw, hex]

theorem materialize_post (cfg : Packager) :
    ∀ (files : List File) (fs fs2 : List FsPath) (acts : List Action),
    materialize cfg fs files = .ok fs2 acts →
    (∀ p ∈ fs, p ∈ fs2) ∧
    ∀ f ∈ files, isRelative f.dest = true ∧
      (∃ p, f.src = some p ∧ startsWithCWindows p = false) ∧
      (cfg.out_dir ++ f.dest) ∈ fs2 := by
  intro files
  induction files with
  | nil =>
    intro fs fs2 acts h
    simp only [materialize] at h
    cases h
    exact ⟨fun p hp => hp, by simp⟩
  | cons f rest ih =>
    intro fs fs2 acts h
    by_cases hrel : isRelative f.dest = true
    case neg => simp [materialize, hrel] at h
    case pos =>
      rcases hsrc : f.src with _ | p
      · simp [materialize, hrel, hsrc] at h
      · by_cases hcw : startsWithCWindows p = true
        · simp [materialize, hrel, hsrc, hcw] at h
        · have hcwf : startsWithCWindows p = false := by simpa using hcw
          by_cases hex : pathExists fs (cfg.out_dir ++ f.dest) = true
          · rw [materialize_skip cfg fs f rest p hrel hsrc hcwf hex] at h
            obtain ⟨hmono, hall⟩ := ih fs fs2 acts h
            refine ⟨hmono, ?_⟩
            intro g hg
            rcases List.mem_cons.mp hg with rfl | hgr
            · exact ⟨hrel, ⟨p, hsrc, hcwf⟩, hmono _ (pathExists_iff.mp hex)⟩
            · exact hall g hgr
          · have hexf : pathExists fs (cfg.out_dir ++ f.dest) = false := by simpa using hex
            cases hm : materialize cfg ((cfg.out_dir ++ f.dest) :: fs) rest with
            | fail e fs3 acts3 =>
              simp [materialize, hrel, hsrc, hcwf, hexf, hm] at h
            | ok fs3 acts3 =>
              simp only [materialize, hrel, hsrc, hcwf, hexf, hm] at h
              have h2 : fs3 = fs2 := by
                cases h; rfl
              subst h2
              obtain ⟨hmono, hall⟩ := ih _ fs3 acts3 hm
              refine ⟨fun q hq => hmono q (List.mem_cons_of_mem _ hq), ?_⟩
              intro g hg
              rcases List.mem_cons.mp hg with rfl | hgr
              · exact ⟨hrel, ⟨p, hsrc, hcwf⟩, hmono _ (List.mem_cons_self _ _)⟩
              · exact hall g hgr

theorem materialize_all_exist (cfg : Packager) :
    ∀ (files : List File) (fs : List FsPath),
    (∀ f ∈ files, isRelative f.dest = true ∧
      (∃ p, f.src = some p ∧ startsWithCWindows p = false) ∧
      (cfg.out_dir ++ f.dest) ∈ fs) →
    materialize cfg fs files = .ok fs [] := by
  intro files
  induction files with
  | nil => intro fs _; rfl
  | cons f rest ih =>
    intro fs hall
    obtain ⟨hrel, ⟨p, hsrc, hcw⟩, hex⟩ := hall f (List.mem_cons_self f rest)
    rw [materialize_skip cfg fs f rest p hrel hsrc hcw (pathExists_iff.mpr hex)]
    exact ih fs (fun g hg => hall g (List.mem_cons_of_mem f hg))

theorem scanPass_congr {w1 w2 : World} (h : w2.imports = w1.imports) :
    ∀ (files : List File) (acc : List String × List String),
    scanPass w2 acc files = scanPass w1 acc files := by
  intro files
  induction files with
  | nil => intro acc; rfl
  | cons f rest ih =>
    intro acc
    simp only [scanPass]
    by_cases hf : (f.flags.lib || f.flags.exe) = true
    · rw [if_pos hf, if_pos hf]
      have hsf : scanFile w2 acc f = scanFile w1 acc f := by
        simp only [scanFile, h]
      rw [hsf]
      cases scanFile w1 acc f with
      | error e => rfl
      | ok acc2 => exact ih acc2
    · rw [if_neg hf, if_neg hf]
      exact ih acc

theorem drainUnknowns_congr (cfg : Packager) {w1 w2 : World}
    (hl : ∀ n, lookup_msys2_file cfg w2.fs n = lookup_msys2_file cfg w1.fs n) :
    ∀ (us : List String) (files : List File),
    drainUnknowns cfg w2 files us = drainUnknowns cfg w1 files us := by
  intro us
  induction us with
  | nil => intro files; rfl
  | cons x rest ih =>
    intro files
    simp only [drainUnknowns, hl x]
    cases lookup_msys2_file cfg w1.fs x with
    | none => rfl
    | some src => exact ih _

theorem closureLoop_congr (cfg : Packager) {w1 w2 : World}
    (himp : w2.imports = w1.imports)
    (hl : ∀ n, lookup_msys2_file cfg w2.fs n = lookup_msys2_file cfg w1.fs n) :
    ∀ (fuel : Nat) (st : LoopState),
    closureLoop cfg w2 fuel st = closureLoop cfg w1 fuel st := by
  intro fuel
  induction fuel with
  | zero => intro st; rfl
  | succ fuel ih =>
    intro st
    simp only [closureLoop]
    rw [scanPass_congr himp]
    rcases hsp : scanPass w1 (st.known, st.unknown) (st.files.drop st.offset) with e | ⟨ks, us⟩
    · simp only [hsp]
    · simp only [hsp]
      rw [drainUnknowns_congr cfg hl us st.files]
      rcases hdr : drainUnknowns cfg w1 st.files us with e | files2
      · simp only [hdr]
      · simp only [hdr]
        by_cases hus : us = []
        · rw [if_pos hus, if_pos hus]
        · rw [if_neg hus, if_neg hus]
          exact ih _

theorem resolvePhase_congr (cfg : Packager) {w1 w2 : World}
    (hl : ∀ n, lookup_msys2_file cfg w2.fs n = lookup_msys2_file cfg w1.fs n) :
    ∀ files, resolvePhase cfg w2 files = resolvePhase cfg w1 files := by
  intro files
  induction files with
  | nil => rfl
  | cons f rest ih =>
    rcases hsrc : f.src with _ | p
    · rcases hd : f.dest with _ | ⟨c, t⟩
      · simp only [resolvePhase, hsrc, hd]
      · rcases t with _ | ⟨c2, t2⟩
        · rcases c with _ | _ | _ | s
          · simp only [resolvePhase, hsrc, hd]
          · simp only [resolvePhase, hsrc, hd]
          · simp only [resolvePhase, hsrc, hd]
          · simp only [resolvePhase, hsrc, hd, hl s, ih]
        · simp only [resolvePhase, hsrc, hd]
    · simp only [resolvePhase, hsrc, ih]

/-- C9 (amended): Phase 4 skips any entry whose computed destination
already exists (no copy, no compression for it); and provided the first
run's outputs do not change any sysroot lookup, running `package` twice on
the same configuration succeeds with the same staging list, performs no
action, and leaves the output tree unchanged. The lookup-stability proviso
is forced by `claim_C9_cx`, where the output root aliases the sysroot. -/
theorem claim_C9_amended :
    (∀ (cfg : Packager) (fs : List FsPath) (f : File) (rest : List File) (p : FsPath),
      isRelative f.dest = true → f.src = some p → startsWithCWindows p = false →
      pathExists fs (cfg.out_dir ++ f.dest) = true →
      materialize cfg fs (f :: rest) = materialize cfg fs rest) ∧
    (∀ (cfg : Packager) (w : World) (fuel : Nat) (files1 : List File)
        (fsOut : List FsPath) (acts : List Action),
      package cfg w fuel = .ok files1 fsOut acts →
      (∀ n, lookup_msys2_file cfg fsOut n = lookup_msys2_file cfg w.fs n) →
      package cfg { fs := fsOut, imports := w.imports } fuel = .ok files1 fsOut []) := by
  constructor
  · exact materialize_skip
  · intro cfg w fuel files1 fsOut acts hrun hl
    have hl2 : ∀ n, lookup_msys2_file cfg (World.mk fsOut w.imports).fs n
        = lookup_msys2_file cfg w.fs n := hl
    unfold package at hrun ⊢
    rcases hres : resolvePhase cfg w cfg.files with e | filesA
    · simp only [hres] at hrun
      cases hrun
    · simp only [hres] at hrun
      have hres2 : resolvePhase cfg (World.mk fsOut w.imports) cfg.files = .ok filesA := by
        rw [resolvePhase_congr cfg hl2, hres]
      simp only [hres2]
      have hloop : (if cfg.resolve_unknown_libraries = true then
            closureLoop cfg (World.mk fsOut w.imports) fuel (LoopState.mk filesA [] [] 0)
          else .done filesA)
          = (if cfg.resolve_unknown_libraries = true then
            closureLoop cfg w fuel (LoopState.mk filesA [] [] 0)
          else .done filesA) := by
        by_cases hru : cfg.resolve_unknown_libraries = true
        · rw [if_pos hru, if_pos hru,
            @closureLoop_congr cfg w (World.mk fsOut w.imports) rfl hl2]
        · rw [if_neg hru, if_neg hru]
      rw [hloop]
      cases hcl : (if cfg.resolve_unknown_libraries = true then
          closureLoop cfg w fuel (LoopState.mk filesA [] [] 0)
        else .done filesA) with
      | fail e =>
        simp only [hcl] at hrun
        cases hrun
      | fuelOut =>
        simp only [hcl] at hrun
        cases hrun
      | done files2 =>
        simp only [hcl] at hrun
        cases hmat : materialize cfg w.fs files2 with
        | fail e fsB actsB =>
          simp only [hmat] at hrun
          cases hrun
        | ok fsB actsB =>
          simp only [hmat] at hrun
          cases hrun
          obtain ⟨hmono, hall⟩ := materialize_post cfg files1 w.fs fsOut acts hmat
          have hnoop : materialize cfg fsOut files1 = .ok fsOut [] :=
            materialize_all_exist cfg files1 fsOut (fun f hf => hall f hf)
          simp only [hnoop]

/-- Counterexample to C9 as stated: with the output root aliasing the
sysroot's `lib` directory, the first run succeeds producing the tree
`c9fs1`, and a second run on the same configuration and the resulting
world performs a copy and changes the tree. -/
theorem claim_C9_cx :
    pkgIsOk (package c9cfg c9world 9) = true ∧
    pkgFsOf (package c9cfg c9world 9) = c9fs1 ∧
    pkgIsOk (package c9cfg c9world2 9) = true ∧
    pkgActsOf (package c9cfg c9world2 9) ≠ [] ∧
    pkgFsOf (package c9cfg c9world2 9) ≠ c9fs1 := by
  refine ⟨by decide, by decide, by decide, by decide, by decide⟩

theorem c9w_lookup_stable :
    ∀ n, lookup_msys2_file c9wCfg [c9wOut] n = lookup_msys2_file c9wCfg [] n := by
  intro n
  simp [lookup_msys2_file, get_msys2_environment_path, pathExists, c9wCfg, c9wOut,
    List.findSome?_cons, List.findSome?_nil, Msys2Environment.get_prefix_str, trimLeadSlashes]

/-- Witness for C9: a run whose outputs cannot alias the sysroot; the
second run performs no action and keeps the tree. -/
theorem claim_C9_witness :
    package c9wCfg c9wWorld 1 = .ok [c9wEnt] [c9wOut] [Action.copy c9wSrc c9wOut] ∧
    package c9wCfg { fs := [c9wOut], imports := c9wWorld.imports } 1
      = .ok [c9wEnt] [c9wOut] [] :=
  ⟨by decide,
   claim_C9_amended.2 c9wCfg c9wWorld 1 [c9wEnt] [c9wOut] [Action.copy c9wSrc c9wOut]
     (by decide) c9w_lookup_stable⟩

/-! ### Closure-set lemmas for claims C1 and C2 -/

theorem insertSet_sub (l : List String) (y : String) : l ⊆ insertSet l y := by
  unfold insertSet
  split_ifs
  · exact fun x h => h
  · exact fun x h => List.mem_append_left _ h

theorem insertSet_self (l : List String) (y : String) : y ∈ insertSet l y := by
  unfold insertSet
  split_ifs with h
  · exact h
  · exact List.mem_append_right _ (List.mem_cons_self _ _)

theorem insertSet_mem_iff {l : List String} {y x : String} :
    x ∈ insertSet l y ↔ x ∈ l ∨ x = y := by
  unfold insertSet
  split_ifs with h
  · constructor
    · exact fun hx => Or.inl hx
    · rintro (hx | rfl)
      · exact hx
      · exact h
  · constructor
    · intro hx
      rcases List.mem_append.mp hx with hx | hx
      · exact Or.inl hx
      · exact Or.inr (List.mem_singleton.mp hx)
    · rintro (hx | rfl)
      · exact List.mem_append_left _ hx
      · exact List.mem_append_right _ (List.mem_cons_self _ _)

theorem removeSet_sub (l : List String) (y : String) : removeSet l y ⊆ l := by
  unfold removeSet
  exact fun x h => (List.mem_filter.mp h).1

theorem removeSet_mem_iff {l : List String} {y x : String} :
    x ∈ removeSet l y ↔ x ∈ l ∧ x ≠ y := by
  unfold removeSet
  rw [List.mem_filter]
  simp

theorem processImport_known_mono (acc : List String × List String) (n : String) :
    acc.1 ⊆ (processImport acc n).1 := by
  unfold processImport
  split_ifs
  · exact fun x h => h
  · exact fun x h => h
  · exact insertSet_sub _ _
  · exact fun x h => h

theorem processImport_unknown_mono (acc : List String × List String) (n : String) :
    acc.2 ⊆ (processImport acc n).2 := by
  unfold processImport
  split_ifs
  · exact fun x h => h
  · exact fun x h => h
  · exact fun x h => h
  · exact insertSet_sub _ _

theorem processImports_known_mono :
    ∀ (l : List String) (acc : List String × List String),
    acc.1 ⊆ (processImports acc l).1 := by
  intro l
  induction l with
  | nil => intro acc; exact fun x h => h
  | cons n rest ih =>
    intro acc
    exact fun x hx => ih (processImport acc n) (processImport_known_mono acc n hx)

theorem processImports_unknown_mono :
    ∀ (l : List String) (acc : List String × List String),
    acc.2 ⊆ (processImports acc l).2 := by
  intro l
  induction l with
  | nil => intro acc; exact fun x h => h
  | cons n rest ih =>
    intro acc
    exact fun x hx => ih (processImport acc n) (processImport_unknown_mono acc n hx)

theorem processImport_fate (acc : List String × List String) (n : String) :
    is_system_dll n = true ∨ n ∈ (processImport acc n).1 ∨ n ∈ (processImport acc n).2 := by
  unfold processImport
  split_ifs with h1 h2 h3
  · exact Or.inl h1
  · exact Or.inr (Or.inl h2)
  · exact Or.inr (Or.inl (insertSet_self _ _))
  · exact Or.inr (Or.inr (insertSet_self _ _))

theorem processImports_fate :
    ∀ (l : List String) (acc : List String × List String),
    ∀ n ∈ l, is_system_dll n = true ∨
      n ∈ (processImports acc l).1 ∨ n ∈ (processImports acc l).2 := by
  intro l
  induction l with
  | nil => intro acc n hn; cases hn
  | cons m rest ih =>
    intro acc n hn
    rcases List.mem_cons.mp hn with rfl | hm
    · rcases processImport_fate acc n with h | h | h
      · exact Or.inl h
      · exact Or.inr (Or.inl (processImports_known_mono rest _ h))
      · exact Or.inr (Or.inr (processImports_unknown_mono rest _ h))
    · exact ih (processImport acc m) n hm

theorem processImport_known_origin {acc : List String × List String} {n x : String}
    (hx : x ∈ (processImport acc n).1) :
    x ∈ acc.1 ∨ (x = n ∧ is_api_set_dll x = true) := by
  unfold processImport at hx
  split_ifs at hx with h1 h2 h3
  · exact Or.inl hx
  · exact Or.inl hx
  · rcases insertSet_mem_iff.mp hx with hx | rfl
    · exact Or.inl hx
    · exact Or.inr ⟨rfl, h3⟩
  · exact Or.inl hx

theorem processImports_known_origin :
    ∀ (l : List String) (acc : List String × List String) (x : String),
    x ∈ (processImports acc l).1 →
    x ∈ acc.1 ∨ (x ∈ l ∧ is_api_set_dll x = true) := by
  intro l
  induction l with
  | nil => intro acc x hx; exact Or.inl hx
  | cons m rest ih =>
    intro acc x hx
    rcases ih (processImport acc m) x hx with hx2 | ⟨hxl, hapi⟩
    · rcases processImport_known_origin hx2 with hx3 | ⟨rfl, hapi⟩
      · exact Or.inl hx3
      · exact Or.inr ⟨List.mem_cons_self _ _, hapi⟩
    · exact Or.inr ⟨List.mem_cons_of_mem _ hxl, hapi⟩

theorem processImport_unknown_origin {acc : List String × List String} {n x : String}
    (hx : x ∈ (processImport acc n).2) : x ∈ acc.2 ∨ x = n := by
  unfold processImport at hx
  split_ifs at hx
  · exact Or.inl hx
  · exact Or.inl hx
  · exact Or.inl hx
  · exact (insertSet_mem_iff.mp hx).imp id id

theorem processImports_unknown_origin :
    ∀ (l : List String) (acc : List String × List String) (x : String),
    x ∈ (processImports acc l).2 → x ∈ acc.2 ∨ x ∈ l := by
  intro l
  induction l with
  | nil => intro acc x hx; exact Or.inl hx
  | cons m rest ih =>
    intro acc x hx
    rcases ih (processImport acc m) x hx with hx2 | hxl
    · rcases processImport_unknown_origin hx2 with hx3 | rfl
      · exact Or.inl hx3
      · exact Or.inr (List.mem_cons_self _ _)
    · exact Or.inr (List.mem_cons_of_mem _ hxl)

theorem processImport_ud {acc : List String × List String} {n : String}
    (h : UDInv acc) : UDInv (processImport acc n) := by
  unfold processImport
  split_ifs with h1 h2 h3
  · exact h
  · exact h
  · -- API-set names go to known; no unknown name can equal an API-set name
    intro x hx
    obtain ⟨hnk, hna⟩ := h x hx
    refine ⟨?_, hna⟩
    intro hmem
    rcases insertSet_mem_iff.mp hmem with hmem | rfl
    · exact hnk hmem
    · rw [h3] at hna; cases hna
  · intro x hx
    rcases insertSet_mem_iff.mp hx with hx2 | hxe
    · exact h x hx2
    · rw [hxe]
      refine ⟨h2, ?_⟩
      cases hapi : is_api_set_dll n with
      | false => rfl
      | true => exact absurd hapi h3

theorem processImports_ud :
    ∀ (l : List String) (acc : List String × List String),
    UDInv acc → UDInv (processImports acc l) := by
  intro l
  induction l with
  | nil => intro acc h; exact h
  | cons m rest ih => intro acc h; exact ih _ (processImport_ud h)

theorem scanFile_ok_elim {w : World} {acc res : List String × List String} {f : File}
    (h : scanFile w acc f = .ok res) :
    ∃ src fname, f.src = some src ∧ fileNameOf src = some fname ∧
      res = processImports (insertSet acc.1 fname, removeSet acc.2 fname) (w.imports src) := by
  unfold scanFile at h
  rcases hsrc : f.src with _ | src
  · simp only [hsrc] at h
    exact Except.noConfusion h
  · simp only [hsrc] at h
    rcases hfn : fileNameOf src with _ | fname
    · simp only [hfn] at h
      exact Except.noConfusion h
    · simp only [hfn] at h
      injection h with h2
      exact ⟨src, fname, rfl, hfn, h2.symm⟩

/-- All facts needed about one pass of the closure loop, proved by a single
induction over the scanned slice. -/
theorem scanPass_facts (w : World) :
    ∀ (files : List File) (acc : List String × List String) (ks us : List String),
    scanPass w acc files = .ok (ks, us) →
    (acc.1 ⊆ ks) ∧
    (∀ x ∈ acc.2, x ∈ ks ∨ x ∈ us) ∧
    (∀ f ∈ files, (f.flags.lib || f.flags.exe) = true →
      ∃ p fn, f.src = some p ∧ fileNameOf p = some fn ∧ fn ∈ ks) ∧
    (∀ f ∈ files, (f.flags.lib || f.flags.exe) = true →
      ∀ p, f.src = some p → ∀ n ∈ w.imports p,
        is_system_dll n = true ∨ n ∈ ks ∨ n ∈ us) ∧
    (∀ x ∈ ks, x ∈ acc.1 ∨ is_api_set_dll x = true ∨
      ∃ f ∈ files, ∃ p, f.src = some p ∧ fileNameOf p = some x) ∧
    (∀ x ∈ us, x ∈ acc.2 ∨
      ∃ f ∈ files, ∃ p, f.src = some p ∧ x ∈ w.imports p) ∧
    (UDInv acc → UDInv (ks, us)) := by
  intro files
  induction files with
  | nil =>
    intro acc ks us h
    simp only [scanPass] at h
    obtain ⟨acc1, acc2⟩ := acc
    injection h with h2
    injection h2 with h3 h4
    subst h3
    subst h4
    refine ⟨fun x hx => hx, fun x hx => Or.inr hx, ?_, ?_, ?_, ?_, fun hud => hud⟩
    · intro f hf; cases hf
    · intro f hf; cases hf
    · intro x hx; exact Or.inl hx
    · intro x hx; exact Or.inl hx
  | cons f rest ih =>
    intro acc ks us h
    simp only [scanPass] at h
    by_cases hf : (f.flags.lib || f.flags.exe) = true
    · rw [if_pos hf] at h
      rcases hsf : scanFile w acc f with e | res
      · simp only [hsf] at h
        exact Except.noConfusion h
      · simp only [hsf] at h
        obtain ⟨src, fname, hsrc, hfn, hres⟩ := scanFile_ok_elim hsf
        obtain ⟨ihm, ihuf, ihnames, ihfate, ihko, ihuo, ihud⟩ := ih res ks us h
        subst hres
        refine ⟨?_, ?_, ?_, ?_, ?_, ?_, ?_⟩
        · -- known grows
          exact fun x hx =>
            ihm (processImports_known_mono _ _ (insertSet_sub _ _ hx))
        · -- old unknowns end up known or unknown
          intro x hx
          by_cases hxe : x = fname
          · subst hxe
            exact Or.inl (ihm (processImports_known_mono _ _ (insertSet_self _ _)))
          · have hx2 : x ∈ removeSet acc.2 fname := removeSet_mem_iff.mpr ⟨hx, hxe⟩
            exact ihuf x (processImports_unknown_mono _ _ hx2)
        · -- every scanned LIB/EXE entry's name is known
          intro g hg hgf
          rcases List.mem_cons.mp hg with rfl | hgr
          · exact ⟨src, fname, hsrc, hfn,
              ihm (processImports_known_mono _ _ (insertSet_self _ _))⟩
          · exact ihnames g hgr hgf
        · -- every import of a scanned entry is system, known, or unknown
          intro g hg hgf p hp n hn
          rcases List.mem_cons.mp hg with rfl | hgr
          · rw [hsrc] at hp
            injection hp with hp2
            subst hp2
            rcases processImports_fate (w.imports src) _ n hn with h1 | h1 | h1
            · exact Or.inl h1
            · exact Or.inr (Or.inl (ihm h1))
            · rcases ihuf n h1 with h2 | h2
              · exact Or.inr (Or.inl h2)
              · exact Or.inr (Or.inr h2)
          · exact ihfate g hgr hgf p hp n hn
        · -- origin of known names
          intro x hx
          rcases ihko x hx with h1 | h1 | h1
          · rcases processImports_known_origin _ _ x h1 with h2 | ⟨_, hapi⟩
            · rcases insertSet_mem_iff.mp h2 with h3 | rfl
              · exact Or.inl h3
              · exact Or.inr (Or.inr ⟨f, List.mem_cons_self _ _, src, hsrc, hfn⟩)
            · exact Or.inr (Or.inl hapi)
          · exact Or.inr (Or.inl h1)
          · obtain ⟨g, hg, hrest⟩ := h1
            exact Or.inr (Or.inr ⟨g, List.mem_cons_of_mem _ hg, hrest⟩)
        · -- origin of unknown names
          intro x hx
          rcases ihuo x hx with h1 | h1
          · rcases processImports_unknown_origin _ _ x h1 with h2 | h2
            · exact Or.inl (removeSet_sub _ _ h2)
            · exact Or.inr ⟨f, List.mem_cons_self _ _, src, hsrc, h2⟩
          · obtain ⟨g, hg, hrest⟩ := h1
            exact Or.inr ⟨g, List.mem_cons_of_mem _ hg, hrest⟩
        · -- disjointness
          intro hud
          refine ihud (processImports_ud _ _ ?_)
          intro x hx
          obtain ⟨hx2, hxe⟩ := removeSet_mem_iff.mp hx
          obtain ⟨hnk, hna⟩ := hud x hx2
          refine ⟨?_, hna⟩
          intro hmem
          rcases insertSet_mem_iff.mp hmem with h3 | h3
          · exact hnk h3
          · exact hxe h3
    · rw [if_neg hf] at h
      obtain ⟨ihm, ihuf, ihnames, ihfate, ihko, ihuo, ihud⟩ := ih acc ks us h
      refine ⟨ihm, ihuf, ?_, ?_, ?_, ?_, ihud⟩
      · intro g hg hgf
        rcases List.mem_cons.mp hg with rfl | hgr
        · exact absurd hgf hf
        · exact ihnames g hgr hgf
      · intro g hg hgf p hp n hn
        rcases List.mem_cons.mp hg with rfl | hgr
        · exact absurd hgf hf
        · exact ihfate g hgr hgf p hp n hn
      · intro x hx
        rcases ihko x hx with h1 | h1 | h1
        · exact Or.inl h1
        · exact Or.inr (Or.inl h1)
        · obtain ⟨g, hg, hrest⟩ := h1
          exact Or.inr (Or.inr ⟨g, List.mem_cons_of_mem _ hg, hrest⟩)
      · intro x hx
        rcases ihuo x hx with h1 | h1
        · exact Or.inl h1
        · obtain ⟨g, hg, hrest⟩ := h1
          exact Or.inr ⟨g, List.mem_cons_of_mem _ hg, hrest⟩

theorem lookup_mem {cfg : Packager} {fs : List FsPath} {n : String} {p : FsPath}
    (h : lookup_msys2_file cfg fs n = some p) : p ∈ fs := by
  rw [lookup_eq_find cfg fs n] at h
  exact pathExists_iff.mp (List.find?_some h)

theorem drainUnknowns_shape (cfg : Packager) (w : World) :
    ∀ (us : List String) (files files2 : List File),
    drainUnknowns cfg w files us = .ok files2 →
    ∃ extra, files2 = files ++ extra ∧
      ∀ e ∈ extra, ∃ n src, n ∈ us ∧ lookup_msys2_file cfg w.fs n = some src ∧
        e = { src := some src, dest := [Component.normal n], flags := closureFlags } := by
  intro us
  induction us with
  | nil =>
    intro files files2 h
    simp only [drainUnknowns] at h
    injection h with h2
    refine ⟨[], by rw [← h2, List.append_nil], ?_⟩
    intro e he
    cases he
  | cons x rest ih =>
    intro files files2 h
    simp only [drainUnknowns] at h
    rcases hl : lookup_msys2_file cfg w.fs x with _ | src
    · simp only [hl] at h
      exact Except.noConfusion h
    · simp only [hl] at h
      obtain ⟨extra, hfe, hall⟩ := ih _ files2 h
      refine ⟨{ src := some src, dest := [Component.normal x], flags := closureFlags } :: extra,
        ?_, ?_⟩
      · rw [hfe]
        simp
      · intro e he
        rcases List.mem_cons.mp he with rfl | he2
        · exact ⟨x, src, List.mem_cons_self _ _, hl, rfl⟩
        · obtain ⟨n, src2, hn, hlk, hee⟩ := hall e he2
          exact ⟨n, src2, List.mem_cons_of_mem _ hn, hlk, hee⟩

theorem drainUnknowns_covers (cfg : Packager) (w : World) :
    ∀ (us : List String) (files files2 : List File),
    drainUnknowns cfg w files us = .ok files2 →
    ∀ n ∈ us, ∃ e ∈ files2, e.dest = [Component.normal n] ∧
      ∃ src, lookup_msys2_file cfg w.fs n = some src ∧ e.src = some src ∧
        e.flags = closureFlags := by
  intro us
  induction us with
  | nil =>
    intro files files2 _ n hn
    cases hn
  | cons x rest ih =>
    intro files files2 h n hn
    simp only [drainUnknowns] at h
    rcases hl : lookup_msys2_file cfg w.fs x with _ | src
    · simp only [hl] at h
      exact Except.noConfusion h
    · simp only [hl] at h
      rcases List.mem_cons.mp hn with rfl | hn2
      · obtain ⟨extra, hfe, _⟩ := drainUnknowns_shape cfg w rest _ files2 h
        refine ⟨{ src := some src, dest := [Component.normal n], flags := closureFlags },
          ?_, rfl, src, hl, rfl, rfl⟩
        rw [hfe]
        exact List.mem_append_left _ (List.mem_append_right _ (List.mem_cons_self _ _))
      · exact ih _ files2 h n hn2

theorem closureLoop_coverage (cfg : Packager) (w : World) :
    ∀ (fuel : Nat) (st : LoopState) (F : List File),
    closureLoop cfg w fuel st = .done F →
    st.unknown = [] →
    (∀ x ∈ st.known, is_api_set_dll x = true ∨
      ∃ f ∈ st.files, ∃ p, f.src = some p ∧ fileNameOf p = some x) →
    (∀ f ∈ st.files.take st.offset, (f.flags.lib || f.flags.exe) = true →
      ∀ p, f.src = some p → ∀ n ∈ w.imports p,
        is_system_dll n = true ∨ n ∈ st.known ∨
        ∃ g ∈ st.files, g.dest = [Component.normal n]) →
    ∀ f ∈ F, (f.flags.lib || f.flags.exe) = true →
      ∀ p, f.src = some p → ∀ n ∈ w.imports p, ImportCovered F n := by
  intro fuel
  induction fuel with
  | zero =>
    intro st F h
    exact absurd h (by simp [closureLoop])
  | succ fuel ih =>
    intro st F h hu hknown hpre
    simp only [closureLoop] at h
    rw [hu] at h
    rcases hsp : scanPass w (st.known, []) (st.files.drop st.offset) with e | ⟨ks, us⟩
    · simp only [hsp] at h
      exact LoopResult.noConfusion h
    · simp only [hsp] at h
      rcases hdr : drainUnknowns cfg w st.files us with e | files2
      · simp only [hdr] at h
        exact LoopResult.noConfusion h
      · simp only [hdr] at h
        obtain ⟨hmono, huf, hnames, hfate, hko, huo, hud⟩ :=
          scanPass_facts w (st.files.drop st.offset) (st.known, []) ks us hsp
        by_cases hus : us = []
        · rw [if_pos hus] at h
          injection h with h2
          subst h2
          rw [hus] at hdr
          simp only [drainUnknowns] at hdr
          injection hdr with h3
          subst h3
          intro f hf hflag p hp n hn
          have hsplit : f ∈ st.files.take st.offset ∨ f ∈ st.files.drop st.offset := by
            rw [← List.take_append_drop st.offset st.files] at hf
            exact List.mem_append.mp hf
          have hknownCov : n ∈ st.known → ImportCovered st.files n := by
            intro hk
            rcases hknown n hk with ha | ⟨g, hg, q, hq, hfq⟩
            · exact Or.inr (Or.inl ha)
            · exact Or.inr (Or.inr (Or.inl ⟨g, hg, q, hq, hfq⟩))
          rcases hsplit with hf2 | hf2
          · rcases hpre f hf2 hflag p hp n hn with hsys | hk | ⟨g, hg, hgd⟩
            · exact Or.inl hsys
            · exact hknownCov hk
            · exact Or.inr (Or.inr (Or.inr ⟨g, hg, hgd⟩))
          · rcases hfate f hf2 hflag p hp n hn with hsys | hk | hun
            · exact Or.inl hsys
            · rcases hko n hk with h1 | h1 | ⟨g, hg, q, hq, hfq⟩
              · exact hknownCov h1
              · exact Or.inr (Or.inl h1)
              · exact Or.inr (Or.inr (Or.inl
                  ⟨g, List.mem_of_mem_drop hg, q, hq, hfq⟩))
            · rw [hus] at hun
              cases hun
        · rw [if_neg hus] at h
          obtain ⟨extra, hfe, _⟩ := drainUnknowns_shape cfg w us st.files files2 hdr
          refine ih ⟨files2, ks, [], st.files.length - 1⟩ F h rfl ?_ ?_
          · intro x hx
            rcases hko x hx with h1 | h1 | ⟨g, hg, q, hq, hfq⟩
            · rcases hknown x h1 with ha | ⟨g, hg, q, hq, hfq⟩
              · exact Or.inl ha
              · exact Or.inr ⟨g, by rw [hfe]; exact List.mem_append_left _ hg, q, hq, hfq⟩
            · exact Or.inl h1
            · exact Or.inr ⟨g, by
                rw [hfe]
                exact List.mem_append_left _ (List.mem_of_mem_drop hg), q, hq, hfq⟩
          · intro f hf hflag p hp n hn
            have hf2 : f ∈ st.files := by
              have hlen : st.files.length - 1 ≤ st.files.length := Nat.sub_le _ _
              rw [hfe, List.take_append_of_le_length hlen] at hf
              exact List.mem_of_mem_take hf
            have hsplit : f ∈ st.files.take st.offset ∨ f ∈ st.files.drop st.offset := by
              rw [← List.take_append_drop st.offset st.files] at hf2
              exact List.mem_append.mp hf2
            rcases hsplit with hf3 | hf3
            · rcases hpre f hf3 hflag p hp n hn with hsys | hk | ⟨g, hg, hgd⟩
              · exact Or.inl hsys
              · exact Or.inr (Or.inl (hmono hk))
              · exact Or.inr (Or.inr ⟨g, by rw [hfe]; exact List.mem_append_left _ hg, hgd⟩)
            · rcases hfate f hf3 hflag p hp n hn with hsys | hk | hun
              · exact Or.inl hsys
              · exact Or.inr (Or.inl hk)
              · obtain ⟨e, he, hed, _⟩ := drainUnknowns_covers cfg w us st.files files2 hdr n hun
                exact Or.inr (Or.inr ⟨e, he, hed⟩)

theorem mem_importsOfSrcs (w : World) :
    ∀ (files : List File) (f : File), f ∈ files → ∀ p, f.src = some p →
    ∀ n ∈ w.imports p, n ∈ importsOfSrcs w files := by
  intro files
  induction files with
  | nil => intro f hf; cases hf
  | cons g rest ih =>
    intro f hf p hp n hn
    simp only [importsOfSrcs, List.foldr_cons]
    rcases List.mem_cons.mp hf with rfl | hf2
    · simp only [hp]
      exact List.mem_append_left _ hn
    · exact List.mem_append_right _ (ih f hf2 p hp n hn)

theorem mem_foldr_imports (w : World) :
    ∀ (l : List FsPath) (p : FsPath), p ∈ l → ∀ n ∈ w.imports p,
    n ∈ l.foldr (fun q acc => w.imports q ++ acc) [] := by
  intro l
  induction l with
  | nil => intro p hp; cases hp
  | cons q rest ih =>
    intro p hp n hn
    simp only [List.foldr_cons]
    rcases List.mem_cons.mp hp with rfl | hp2
    · exact List.mem_append_left _ hn
    · exact List.mem_append_right _ (ih p hp2 n hn)

theorem mem_importUniverse_of_src (cfg : Packager) (w : World) {f : File} {p : FsPath}
    {n : String} (hf : f ∈ cfg.files) (hp : f.src = some p) (hn : n ∈ w.imports p) :
    n ∈ importUniverse cfg w :=
  List.mem_append_left _ (mem_importsOfSrcs w cfg.files f hf p hp n hn)

theorem mem_importUniverse_of_fs (cfg : Packager) (w : World) {p : FsPath} {n : String}
    (hp : p ∈ w.fs) (hn : n ∈ w.imports p) : n ∈ importUniverse cfg w :=
  List.mem_append_right _ (mem_foldr_imports w w.fs p hp n hn)

theorem resolvePhase_srcs (cfg : Packager) (w : World) :
    ∀ (files files2 : List File), resolvePhase cfg w files = .ok files2 →
    ∀ g ∈ files2, ∀ p, g.src = some p →
      (∃ f ∈ files, f.src = some p) ∨ p ∈ w.fs := by
  intro files
  induction files with
  | nil =>
    intro files2 h
    simp only [resolvePhase] at h
    injection h with h2
    subst h2
    intro g hg
    cases hg
  | cons f rest ih =>
    intro files2 h
    simp only [resolvePhase] at h
    rcases hsrc : f.src with _ | p0
    · simp only [hsrc] at h
      rcases hd : f.dest with _ | ⟨c, t⟩
      · simp only [hd] at h
        exact Except.noConfusion h
      · rcases t with _ | ⟨c2, t2⟩
        · rcases c with _ | _ | _ | s
          · simp only [hd] at h
            exact Except.noConfusion h
          · simp only [hd] at h
            exact Except.noConfusion h
          · simp only [hd] at h
            exact Except.noConfusion h
          · simp only [hd] at h
            rcases hlk : lookup_msys2_file cfg w.fs s with _ | src
            · simp only [hlk] at h
              exact Except.noConfusion h
            · simp only [hlk] at h
              rcases hrest : resolvePhase cfg w rest with e | rest2
              · simp only [hrest] at h
                exact Except.noConfusion h
              · simp only [hrest] at h
                injection h with h2
                subst h2
                intro g hg p hp
                rcases List.mem_cons.mp hg with rfl | hg2
                · have hp2 : src = p := Option.some.inj hp
                  subst hp2
                  exact Or.inr (lookup_mem hlk)
                · rcases ih rest2 hrest g hg2 p hp with ⟨f2, hf2, hsrc2⟩ | hfs
                  · exact Or.inl ⟨f2, List.mem_cons_of_mem _ hf2, hsrc2⟩
                  · exact Or.inr hfs
        · simp only [hd] at h
          exact Except.noConfusion h
    · simp only [hsrc] at h
      rcases hrest : resolvePhase cfg w rest with e | rest2
      · simp only [hrest] at h
        exact Except.noConfusion h
      · simp only [hrest] at h
        injection h with h2
        subst h2
        intro g hg p hp
        rcases List.mem_cons.mp hg with rfl | hg2
        · exact Or.inl ⟨g, List.mem_cons_self _ _, hp⟩
        · rcases ih rest2 hrest g hg2 p hp with ⟨f2, hf2, hsrc2⟩ | hfs
          · exact Or.inl ⟨f2, List.mem_cons_of_mem _ hf2, hsrc2⟩
          · exact Or.inr hfs

theorem pendingNames_mem {l : List File} {x : String} (h : x ∈ pendingNames l) :
    ∃ f ∈ l, (f.flags.lib || f.flags.exe) = true ∧ entryPendName f = some x := by
  unfold pendingNames at h
  obtain ⟨f, hf, hp⟩ := List.mem_filterMap.mp h
  obtain ⟨hfl, hflag⟩ := List.mem_filter.mp hf
  exact ⟨f, hfl, hflag, hp⟩

theorem mem_pendingNames {l : List File} {e : File} {x : String}
    (he : e ∈ l) (hf : (e.flags.lib || e.flags.exe) = true)
    (hp : entryPendName e = some x) : x ∈ pendingNames l := by
  unfold pendingNames
  exact List.mem_filterMap.mpr ⟨e, List.mem_filter.mpr ⟨he, hf⟩, hp⟩

theorem drainUnknowns_covers_extra (cfg : Packager) (w : World) :
    ∀ (us : List String) (files files2 : List File),
    drainUnknowns cfg w files us = .ok files2 →
    ∀ n ∈ us, ∃ e, e ∈ files2.drop files.length ∧ e.dest = [Component.normal n] ∧
      ∃ src, lookup_msys2_file cfg w.fs n = some src ∧ e.src = some src ∧
        e.flags = closureFlags := by
  intro us
  induction us with
  | nil =>
    intro files files2 _ n hn
    cases hn
  | cons x rest ih =>
    intro files files2 h n hn
    simp only [drainUnknowns] at h
    rcases hl : lookup_msys2_file cfg w.fs x with _ | src
    · simp only [hl] at h
      exact Except.noConfusion h
    · simp only [hl] at h
      rcases List.mem_cons.mp hn with rfl | hn2
      · obtain ⟨extra, hfe, _⟩ := drainUnknowns_shape cfg w rest _ files2 h
        refine ⟨{ src := some src, dest := [Component.normal n], flags := closureFlags },
          ?_, rfl, src, hl, rfl, rfl⟩
        rw [hfe, List.append_assoc, List.drop_left]
        exact List.mem_cons_self _ _
      · obtain ⟨e, he, hrest⟩ := ih _ files2 h n hn2
        refine ⟨e, ?_, hrest⟩
        have hlen : (files ++
            [{ src := some src, dest := [Component.normal x], flags := closureFlags }] :
            List File).length = files.length + 1 := by
          simp
        rw [hlen] at he
        rw [← List.drop_drop] at he
        exact List.mem_of_mem_drop he

theorem closureLoop_eq (cfg : Packager) (w : World) (fuel : Nat) (st : LoopState)
    (ks us : List String) (files2 : List File)
    (hs : scanPass w (st.known, st.unknown) (st.files.drop st.offset) = .ok (ks, us))
    (hd : drainUnknowns cfg w st.files us = .ok files2)
    (hus : us ≠ []) :
    closureLoop cfg w (fuel + 1) st =
    closureLoop cfg w fuel ⟨files2, ks, [], st.files.length - 1⟩ := by
  simp only [closureLoop, hs, hd]
  rw [if_neg hus]

theorem closureLoop_step (cfg : Packager) (w : World)
    (hmatch : LookupNamesMatch cfg w = true) (st : LoopState)
    (ks us : List String) (files2 : List File)
    (hsp : scanPass w (st.known, []) (st.files.drop st.offset) = .ok (ks, us))
    (hdr : drainUnknowns cfg w st.files us = .ok files2)
    (hus : us ≠ [])
    (hinv : ∀ f ∈ st.files, ∀ p, f.src = some p → ∀ n ∈ w.imports p,
      n ∈ importUniverse cfg w) :
    (∀ f ∈ files2, ∀ p, f.src = some p → ∀ n ∈ w.imports p,
      n ∈ importUniverse cfg w) ∧
    loopMeasure (importUniverse cfg w) ks
      (pendingNames (files2.drop (st.files.length - 1))) <
    loopMeasure (importUniverse cfg w) st.known
      (pendingNames (st.files.drop st.offset)) := by
  obtain ⟨hmono, huf, hnames, hfate, hko, huo, hud⟩ :=
    scanPass_facts w (st.files.drop st.offset) (st.known, []) ks us hsp
  obtain ⟨extra, hfe, hex⟩ := drainUnknowns_shape cfg w us st.files files2 hdr
  have hinv2 : ∀ f ∈ files2, ∀ p, f.src = some p → ∀ n ∈ w.imports p,
      n ∈ importUniverse cfg w := by
    intro f hf p hp n hn
    rw [hfe] at hf
    rcases List.mem_append.mp hf with hf2 | hf2
    · exact hinv f hf2 p hp n hn
    · obtain ⟨nn, src, _, hlk, rfl⟩ := hex f hf2
      have hp2 : src = p := Option.some.inj hp
      subst hp2
      exact mem_importUniverse_of_fs cfg w (lookup_mem hlk) hn
  refine ⟨hinv2, ?_⟩
  have hpendks : ∀ x ∈ pendingNames (st.files.drop st.offset), x ∈ ks := by
    intro x hx
    obtain ⟨f, hfl, hflag, hpn⟩ := pendingNames_mem hx
    rcases hsrc : f.src with _ | p
    · simp only [entryPendName, hsrc] at hpn
      exact Option.noConfusion hpn
    · simp only [entryPendName, hsrc] at hpn
      obtain ⟨p2, fn, hp2, hfn2, hks⟩ := hnames f hfl hflag
      rw [hsrc] at hp2
      have hpp : p = p2 := Option.some.inj hp2
      subst hpp
      rw [hfn2] at hpn
      have hxx : fn = x := Option.some.inj hpn
      subst hxx
      exact hks
  rcases us with _ | ⟨n, usr⟩
  · exact absurd rfl hus
  have hnus : n ∈ n :: usr := List.mem_cons_self _ _
  have hnU : n ∈ importUniverse cfg w := by
    rcases huo n hnus with h1 | ⟨f, hf, p, hp, hn2⟩
    · exact absurd h1 (List.not_mem_nil n)
    · exact hinv f (List.mem_of_mem_drop hf) p hp n hn2
  have hudks := hud (fun x hx => absurd hx (List.not_mem_nil x))
  obtain ⟨hnks, _⟩ := hudks n hnus
  have hok : lookupNameOk cfg w.fs n = true := by
    unfold LookupNamesMatch at hmatch
    exact List.all_eq_true.mp hmatch n hnU
  obtain ⟨e, he, hed, src, hlk, hesrc, heflags⟩ :=
    drainUnknowns_covers_extra cfg w (n :: usr) st.files files2 hdr n hnus
  have he2 : e ∈ files2.drop (st.files.length - 1) := by
    have hk : st.files.length - 1 + (st.files.length - (st.files.length - 1)) =
        st.files.length := Nat.add_sub_cancel' (Nat.sub_le _ _)
    have h3 := List.drop_drop (st.files.length - (st.files.length - 1))
      (st.files.length - 1) files2
    rw [hk] at h3
    rw [← h3] at he
    exact List.mem_of_mem_drop he
  have hfn : fileNameOf src = some n := by
    unfold lookupNameOk at hok
    simp only [hlk] at hok
    exact eq_of_beq hok
  have hnp2 : n ∈ pendingNames (files2.drop (st.files.length - 1)) := by
    refine mem_pendingNames he2 ?_ ?_
    · rw [heflags]
      rfl
    · simp only [entryPendName, hesrc]
      exact hfn
  unfold loopMeasure
  have hsub : (importUniverse cfg w).toFinset \ (ks.toFinset ∪
        (pendingNames (files2.drop (st.files.length - 1))).toFinset) ⊆
      (importUniverse cfg w).toFinset \ (st.known.toFinset ∪
        (pendingNames (st.files.drop st.offset)).toFinset) := by
    intro x hx
    rw [Finset.mem_sdiff, Finset.mem_union] at hx ⊢
    refine ⟨hx.1, fun hor => hx.2 ?_⟩
    rcases hor with h | h
    · exact Or.inl (List.mem_toFinset.mpr (hmono (List.mem_toFinset.mp h)))
    · exact Or.inl (List.mem_toFinset.mpr (hpendks x (List.mem_toFinset.mp h)))
  refine Finset.card_lt_card ((Finset.ssubset_iff_of_subset hsub).mpr ⟨n, ?_, ?_⟩)
  · rw [Finset.mem_sdiff, Finset.mem_union]
    refine ⟨List.mem_toFinset.mpr hnU, fun hor => ?_⟩
    rcases hor with h | h
    · exact hnks (hmono (List.mem_toFinset.mp h))
    · exact hnks (hpendks n (List.mem_toFinset.mp h))
  · rw [Finset.mem_sdiff]
    intro hmem
    exact hmem.2 (Finset.mem_union.mpr (Or.inr (List.mem_toFinset.mpr hnp2)))

theorem closureLoop_term (cfg : Packager) (w : World)
    (hmatch : LookupNamesMatch cfg w = true) :
    ∀ (m : Nat) (st : LoopState),
    st.unknown = [] →
    (∀ f ∈ st.files, ∀ p, f.src = some p → ∀ n ∈ w.imports p,
      n ∈ importUniverse cfg w) →
    loopMeasure (importUniverse cfg w) st.known
      (pendingNames (st.files.drop st.offset)) < m →
    closureLoop cfg w m st ≠ .fuelOut := by
  intro m
  induction m with
  | zero =>
    intro st _ _ hm
    exact absurd hm (Nat.not_lt_zero _)
  | succ m ih =>
    intro st hu hinv hm hdiv
    simp only [closureLoop] at hdiv
    rw [hu] at hdiv
    rcases hsp : scanPass w (st.known, []) (st.files.drop st.offset) with e | ⟨ks, us⟩
    · simp only [hsp] at hdiv
      exact LoopResult.noConfusion hdiv
    · simp only [hsp] at hdiv
      rcases hdr : drainUnknowns cfg w st.files us with e | files2
      · simp only [hdr] at hdiv
        exact LoopResult.noConfusion hdiv
      · simp only [hdr] at hdiv
        by_cases hus : us = []
        · rw [if_pos hus] at hdiv
          exact LoopResult.noConfusion hdiv
        · rw [if_neg hus] at hdiv
          obtain ⟨hinv2, hlt⟩ :=
            closureLoop_step cfg w hmatch st ks us files2 hsp hdr hus hinv
          exact ih ⟨files2, ks, [], st.files.length - 1⟩ rfl hinv2
            (Nat.lt_of_lt_of_le hlt (Nat.lt_succ_iff.mp hm)) hdiv

theorem package_terminates_of_match (cfg : Packager) (w : World)
    (hmatch : LookupNamesMatch cfg w = true) : PackageTerminates cfg w := by
  rcases hres : resolvePhase cfg w cfg.files with e | files1
  · refine ⟨1, ?_⟩
    intro hdiv
    simp only [package, hres] at hdiv
    exact PkgOutcome.noConfusion hdiv
  · by_cases hr : cfg.resolve_unknown_libraries = true
    · have hinv1 : ∀ f ∈ files1, ∀ p, f.src = some p → ∀ n ∈ w.imports p,
          n ∈ importUniverse cfg w := by
        intro f hf p hp n hn
        rcases resolvePhase_srcs cfg w cfg.files files1 hres f hf p hp with
          ⟨f2, hf2, hsrc2⟩ | hfs
        · exact mem_importUniverse_of_src cfg w hf2 hsrc2 hn
        · exact mem_importUniverse_of_fs cfg w hfs hn
      refine ⟨loopMeasure (importUniverse cfg w) []
        (pendingNames (files1.drop 0)) + 1, ?_⟩
      intro hdiv
      simp only [package, hres] at hdiv
      rw [if_pos hr] at hdiv
      cases hcl : closureLoop cfg w (loopMeasure (importUniverse cfg w) []
          (pendingNames (files1.drop 0)) + 1) ⟨files1, [], [], 0⟩ with
      | done F =>
        simp only [hcl] at hdiv
        rcases hmat : materialize cfg w.fs F with ⟨fs2, acts⟩ | ⟨e2, fs2, acts⟩
        · simp only [hmat] at hdiv
          exact PkgOutcome.noConfusion hdiv
        · simp only [hmat] at hdiv
          exact PkgOutcome.noConfusion hdiv
      | fail e2 =>
        simp only [hcl] at hdiv
        exact PkgOutcome.noConfusion hdiv
      | fuelOut =>
        exact closureLoop_term cfg w hmatch _ ⟨files1, [], [], 0⟩ rfl hinv1
          (Nat.lt_succ_self _) hcl
    · refine ⟨1, ?_⟩
      intro hdiv
      simp only [package, hres, if_neg hr] at hdiv
      rcases hmat : materialize cfg w.fs files1 with ⟨fs2, acts⟩ | ⟨e2, fs2, acts⟩
      · simp only [hmat] at hdiv
        exact PkgOutcome.noConfusion hdiv
      · simp only [hmat] at hdiv
        exact PkgOutcome.noConfusion hdiv

theorem c2_step (m fuel : Nat) :
    closureLoop c1cfg c2world (fuel + 1) (c2stState m) =
    closureLoop c1cfg c2world fuel (c2stState (m + 1)) := by
  have hdrop : (c1entApp :: List.replicate (m + 2) c1entFoo).drop (m + 1) =
      [c1entFoo, c1entFoo] := by
    rw [List.drop_succ_cons, List.replicate_add]
    have h1 := List.drop_left (List.replicate m c1entFoo) (List.replicate 2 c1entFoo)
    rw [List.length_replicate] at h1
    rw [h1]
    rfl
  have hs2 : scanPass c2world ((c2stState m).known, (c2stState m).unknown)
      ((c2stState m).files.drop (c2stState m).offset) =
      .ok (["app.exe", "foo.dll"], ["foo"]) := by
    show scanPass c2world (["app.exe", "foo.dll"], [])
      ((c1entApp :: List.replicate (m + 2) c1entFoo).drop (m + 1)) = _
    rw [hdrop]
    decide
  have hd2 : drainUnknowns c1cfg c2world (c2stState m).files (["foo"]) =
      .ok (c1entApp :: List.replicate (m + 3) c1entFoo) := by
    show drainUnknowns c1cfg c2world (c1entApp :: List.replicate (m + 2) c1entFoo)
      (["foo"]) = _
    have hlook : lookup_msys2_file c1cfg c2world.fs ("foo") = some c1LibFooDll := by
      decide
    simp only [drainUnknowns, hlook]
    show Except.ok ((c1entApp :: List.replicate (m + 2) c1entFoo) ++ [c1entFoo]) =
      Except.ok (c1entApp :: List.replicate (m + 3) c1entFoo)
    rw [List.cons_append, ← List.replicate_succ']
  refine (closureLoop_eq c1cfg c2world fuel (c2stState m) (["app.exe", "foo.dll"])
    (["foo"]) (c1entApp :: List.replicate (m + 3) c1entFoo) hs2 hd2 (by decide)).trans ?_
  have hstate : LoopState.mk (c1entApp :: List.replicate (m + 3) c1entFoo)
      (["app.exe", "foo.dll"]) [] ((c2stState m).files.length - 1) = c2stState (m + 1) := by
    unfold c2stState
    simp only [List.length_cons, List.length_replicate]
    rw [(by omega : m + 3 = m + 1 + 2)]
    rw [(by omega : m + 1 + 2 - 1 = m + 1 + 1)]
  rw [hstate]

theorem c2_diverges_aux : ∀ (fuel m : Nat),
    closureLoop c1cfg c2world fuel (c2stState m) = .fuelOut := by
  intro fuel
  induction fuel with
  | zero => intro m; rfl
  | succ fuel ih =>
    intro m
    rw [c2_step]
    exact ih (m + 1)

theorem c2_diverges_init : ∀ fuel : Nat,
    closureLoop c1cfg c2world fuel ⟨[c1entApp], [], [], 0⟩ = .fuelOut := by
  intro fuel
  rcases fuel with _ | fuel
  · rfl
  rcases fuel with _ | fuel
  · decide
  · have h1 : closureLoop c1cfg c2world (fuel + 1 + 1) ⟨[c1entApp], [], [], 0⟩ =
        closureLoop c1cfg c2world (fuel + 1) ⟨[c1entApp, c1entFoo], ["app.exe"], [], 0⟩ :=
      closureLoop_eq c1cfg c2world (fuel + 1) ⟨[c1entApp], [], [], 0⟩
        (["app.exe"]) (["foo"]) ([c1entApp, c1entFoo]) (by decide) (by decide) (by decide)
    have h2 : closureLoop c1cfg c2world (fuel + 1)
          ⟨[c1entApp, c1entFoo], ["app.exe"], [], 0⟩ =
        closureLoop c1cfg c2world fuel (c2stState 0) :=
      closureLoop_eq c1cfg c2world fuel ⟨[c1entApp, c1entFoo], ["app.exe"], [], 0⟩
        (["app.exe", "foo.dll"]) (["foo"]) ([c1entApp, c1entFoo, c1entFoo])
        (by decide) (by decide) (by decide)
    rw [h1, h2]
    exact c2_diverges_aux fuel 0

/-- C2 (counterexample): with the executable importing the bare name `foo`
and the resolver finding `lib/foo.dll` for it, the looked-up file's name
(`foo.dll`) never matches the requested name (`foo`), so the closure loop
rescans the trailing entries and appends a fresh copy forever: no fuel
makes `package` terminate. -/
theorem claim_C2_cx : ¬ PackageTerminates c1cfg c2world := by
  rintro ⟨fuel, hne⟩
  apply hne
  have hres : resolvePhase c1cfg c2world c1cfg.files = .ok ([c1entApp]) := by decide
  show package c1cfg c2world fuel = PkgOutcome.diverges
  simp only [package, hres,
    if_pos (show c1cfg.resolve_unknown_libraries = true from rfl),
    c2_diverges_init fuel]

set_option maxHeartbeats 1000000 in
/-- C2 (amended): the Phase 3 closure loop terminates provided every name
of the import universe that the sysroot resolver can resolve resolves to a
path whose file name equals the requested name (`LookupNamesMatch`); the
proviso is forced by `claim_C2_cx`, where the bare name `foo` resolves to
`foo.dll` and the loop diverges. For the cyclic import graph (`app.exe`
has imports `A.dll`; `A.dll` imports `B.dll`; `B.dll` imports `A.dll`)
the run terminates successfully and the final staging list contains each
cycle member exactly once. -/
theorem claim_C2_amended :
    (∀ (cfg : Packager) (w : World), LookupNamesMatch cfg w = true →
      PackageTerminates cfg w) ∧
    package c1cfg c2cyWorld 4 = PkgOutcome.ok c2cyFilesFinal c2cyFsFinal c2cyActs ∧
    (c2cyFilesFinal.filter (fun f => f.src = some c2cyBinA)).length = 1 ∧
    (c2cyFilesFinal.filter (fun f => f.src = some c2cyBinB)).length = 1 :=
  ⟨fun cfg w h => package_terminates_of_match cfg w h, by decide, by decide, by decide⟩

/-- C2 (witness): the termination hypothesis holds for the cyclic
configuration and the amended claim yields its termination. -/
theorem claim_C2_witness :
    LookupNamesMatch c1cfg c2cyWorld = true ∧ PackageTerminates c1cfg c2cyWorld :=
  ⟨by decide, claim_C2_amended.1 c1cfg c2cyWorld (by decide)⟩

/-- C1 (amended): after a successful `package` run with
`resolve_unknown_libraries` set, every import of every LIB/EXE staging
entry is a system DLL, an API-set DLL, the file name of some entry's
resolved source, or — the disjunct forced by `claim_C1_cx` — the single
dest component of some entry: the closure records a looked-up library
under its requested name, not under the resolved file name. -/
theorem claim_C1_amended (cfg : Packager) (w : World) (fuel : Nat)
    (files2 : List File) (fs2 : List FsPath) (acts : List Action)
    (hr : cfg.resolve_unknown_libraries = true)
    (hok : package cfg w fuel = PkgOutcome.ok files2 fs2 acts) :
    ∀ f ∈ files2, (f.flags.lib || f.flags.exe) = true →
      ∀ p, f.src = some p → ∀ n ∈ w.imports p, ImportCovered files2 n := by
  rcases hres : resolvePhase cfg w cfg.files with e | files1
  · simp only [package, hres] at hok
    exact PkgOutcome.noConfusion hok
  · simp only [package, hres] at hok
    rw [if_pos hr] at hok
    cases hcl : closureLoop cfg w fuel ⟨files1, [], [], 0⟩ with
    | done F =>
      simp only [hcl] at hok
      rcases hmat : materialize cfg w.fs F with ⟨fs3, acts3⟩ | ⟨e, fs3, acts3⟩
      · simp only [hmat] at hok
        injection hok with h1 h2 h3
        subst h1
        exact closureLoop_coverage cfg w fuel ⟨files1, [], [], 0⟩ _ hcl rfl
          (by intro x hx; exact absurd hx (List.not_mem_nil x))
          (by intro f hf; exact absurd hf (List.not_mem_nil f))
      · simp only [hmat] at hok
        exact PkgOutcome.noConfusion hok
    | fail e =>
      simp only [hcl] at hok
      exact PkgOutcome.noConfusion hok
    | fuelOut =>
      simp only [hcl] at hok
      exact PkgOutcome.noConfusion hok

set_option maxHeartbeats 1000000 in
/-- C1 (counterexample): a successful run with `resolve_unknown_libraries`
set whose executable imports the bare name `foo`: the name is neither a
system DLL nor an API-set DLL, and no entry of the final staging list has
a resolved source whose file name is `foo` (the resolved file is
`foo.dll`), contradicting the original three-disjunct invariant; only the
dest component of the appended entry records the name. -/
theorem claim_C1_cx :
    package c1cfg c1world 6 = PkgOutcome.ok c1filesFinal c1fsFinal c1acts ∧
    c1cfg.resolve_unknown_libraries = true ∧
    c1entApp ∈ c1filesFinal ∧
    (c1entApp.flags.lib || c1entApp.flags.exe) = true ∧
    c1entApp.src = some c1srcApp ∧
    ("foo") ∈ c1world.imports c1srcApp ∧
    is_system_dll ("foo") = false ∧
    is_api_set_dll ("foo") = false ∧
    (c1filesFinal.all fun f => entryPendName f ≠ some ("foo")) = true := by
  decide

/-- C1 (witness): the amended claim instantiated at the successful cyclic
run, the executable entry, and its import `A.dll`. -/
theorem claim_C1_witness : ImportCovered c2cyFilesFinal ("A.dll") :=
  claim_C1_amended c1cfg c2cyWorld 4 c2cyFilesFinal c2cyFsFinal c2cyActs (by decide)
    (by decide) c1entApp (by decide) (by decide) c1srcApp (by decide) ("A.dll") (by decide)

end GtkPackager
